import Mathlib

/-!
Verification of the mdtest pattern-matching core and executor logic.

This file shallowly embeds the relevant parts of the mdtest source
(src/core.ts, src/executor.ts, src/cmdSession.ts, src/markdown.ts,
src/api.ts, src/integrations/bun.ts) as executable Lean definitions over
`List Char` (the JS string type), and proves the frozen claims about them.

Modelling conventions:
- JS strings are `List Char`; JS string indices become list positions.
- JS `RegExp` values built by `compileExpectedLineToRegex` are embedded as
  an explicit fragment AST (`Frag`) with a backtracking matcher
  (`fragsMatch`) implementing the anchored, greedy, leftmost semantics of
  the JavaScript engine on the fragment shapes the compiler emits.
  User-supplied regular-expression text (whole-line `/…/` lines and
  `\x7b\x7bname:/…/\x7d\x7d` specs) is kept abstract behind an `Oracle`
  parameter giving, for a pattern source and an input, the candidate
  consumed lengths in the engine's preference order.
- The source's `\u0000CAPn\u0000` / `\u0000WILDCARD\u0000` sentinel
  encoding is an implementation detail of building the regex string; the
  embedding compiles straight to the AST, which coincides with the source
  for inputs not containing the NUL character.
- Mutation of the JS capture-table object is modelled by threading the
  table through and returning it (`matchLines` returns the table as it is
  left after the call, including mutations made before a failure, exactly
  as the in-place JS mutation leaves the caller's object).
- Real-time quantities in the executor wait loops (elapsed, silence) are
  abstracted to the boolean comparisons the loop actually performs
  (`WaitTick`); one loop iteration becomes a pure decision function.
-/

namespace Mdtest

/-- The two brace characters, kept as named constants. -/
def lbrace : Char := '\x7b'

def rbrace : Char := '\x7d'

/-- ESC byte used by OSC escape sequences. -/
def esc : Char := '\x1b'

/-- BEL byte terminating OSC 133 sequences. -/
def bel : Char := '\x07'

/-- JS `\s` character class (the code points matched by `/\s/`). -/
def isJsSpace (c : Char) : Bool :=
  c = ' ' ∨ c = '\t' ∨ c = '\n' ∨ c = '\x0b' ∨ c = '\x0c' ∨ c = '\r' ∨
  c = '\xa0' ∨ c.val = 0x1680 ∨ (0x2000 ≤ c.val ∧ c.val ≤ 0x200a) ∨
  c.val = 0x2028 ∨ c.val = 0x2029 ∨ c.val = 0x202f ∨ c.val = 0x205f ∨
  c.val = 0x3000 ∨ c.val = 0xfeff

/-- core.ts `normLine`: `s.replace(/\s+$/g, "")` — drop the trailing
whitespace run. -/
def normLine (s : List Char) : List Char :=
  ((s.reverse).dropWhile isJsSpace).reverse

/-- JS `String.prototype.trim`. -/
def jsTrim (s : List Char) : List Char :=
  (normLine s).dropWhile isJsSpace

/-- JS `split("\n")` (always at least one chunk; `splitNl t` is never
`[]`, so prepending to its first chunk is total). -/
def splitNl : List Char → List (List Char)
  | [] => [[]]
  | c :: rest =>
    if c = '\n' then [] :: splitNl rest
    else (c :: (splitNl rest).headI) :: (splitNl rest).tail

/-- Single left-to-right pass of `s.replace(/\r\n/g, "\n")`. -/
def crlf2lf : List Char → List Char
  | [] => []
  | [c] => [c]
  | c1 :: c2 :: rest =>
    if c1 = '\r' ∧ c2 = '\n' then '\n' :: crlf2lf rest
    else c1 :: crlf2lf (c2 :: rest)

/-- core.ts `splitNorm`: normalize CRLF, split on newlines, strip
trailing whitespace of every line. -/
def splitNorm (s : List Char) : List (List Char) :=
  (splitNl (crlf2lf s)).map normLine

/-! ### Tokenizing an expected line (core.ts `compileExpectedLineToRegex`)

The source first replaces every match of
`TOKEN_RE = /\x7b\x7b([a-zA-Z_][\w-]*)(?::(\*|\/.*?\/))?\x7d\x7d/g`
by a sentinel, then replaces `...` and `[...]` by a wildcard sentinel,
escapes the remaining literal text and substitutes regex fragments for
the sentinels.  We tokenize directly into an item list. -/

/-- JS `\w` (the regex has no unicode flag, so ASCII only). -/
def isWordChar (c : Char) : Bool := c.isAlpha ∨ c.isDigit ∨ c = '_'

/-- First character of a placeholder name: `[a-zA-Z_]`. -/
def isNameStart (c : Char) : Bool := c.isAlpha ∨ c = '_'

/-- Subsequent characters of a placeholder name: `[\w-]`. -/
def isNameChar (c : Char) : Bool := isWordChar c ∨ c = '-'

/-- The lazy body of a `/…/` spec: shortest prefix (not containing a
newline, as `.` does not match one) that is followed by `/` and the two
closing braces.  Returns the body and the remainder after the braces. -/
def slashBody : List Char → Option (List Char × List Char)
  | [] => none
  | c :: rest =>
    if c = '/' ∧ rest.take 2 = [rbrace, rbrace] then some ([], rest.drop 2)
    else if c = '\n' then none
    else
      match slashBody rest with
      | some (p, r) => some (c :: p, r)
      | none => none

/-- An anchored attempt of `TOKEN_RE` at the head of the string.  On
success returns the placeholder name, the optional spec text (capture
group 2 of the regex: `*` or `/…/` with the slashes), and the remainder
of the string after the two closing braces. -/
def matchPhAt (cs : List Char) : Option (List Char × Option (List Char) × List Char) :=
  match cs with
  | b1 :: b2 :: c :: rest =>
    if b1 = lbrace ∧ b2 = lbrace ∧ isNameStart c then
      let nm := c :: rest.takeWhile isNameChar
      let r1 := rest.dropWhile isNameChar
      -- the optional `(?::(\*|\/.*?\/))?` group is greedy: try it first,
      -- fall back to the group-absent parse only if the whole group fails
      match r1 with
      | ':' :: '*' :: c1 :: c2 :: r2 =>
        if c1 = rbrace ∧ c2 = rbrace then some (nm, some ['*'], r2)
        else none
      | ':' :: '/' :: r2 =>
        match slashBody r2 with
        | some (body, r3) => some (nm, some ('/' :: body ++ ['/']), r3)
        | none => none
      | c1 :: c2 :: r2 =>
        if c1 = rbrace ∧ c2 = rbrace then some (nm, none, r2) else none
      | _ => none
    else none
  | _ => none

/-- One item of a tokenized expected line. -/
inductive Item where
  | chr (c : Char)
  | ph (name : List Char) (spec : Option (List Char))
  | wild
  deriving DecidableEq, Repr

/-- Fueled global scan of `TOKEN_RE` over the line (the fuel bounds the
number of characters consumed; `scanPh` supplies enough). -/
def scanPhF : Nat → List Char → List Item
  | _, [] => []
  | 0, _ :: _ => []
  | f + 1, c :: rest =>
    match matchPhAt (c :: rest) with
    | some (nm, sp, r) => .ph nm sp :: scanPhF f r
    | none => .chr c :: scanPhF f rest

/-- Global scan of `TOKEN_RE`, leaving non-matching characters as `chr`
items (they are the literal text that the source later regex-escapes). -/
def scanPh (cs : List Char) : List Item := scanPhF cs.length cs

/-- Second pass: `tmp.replace(/\.\.\.|\[\.\.\.]/g, WILDCARD)`.  At each
position the `...` alternative is tried before `[...]`. -/
def wildScan : List Item → List Item
  | .chr '.' :: .chr '.' :: .chr '.' :: rest => .wild :: wildScan rest
  | .chr '[' :: .chr '.' :: .chr '.' :: .chr '.' :: .chr ']' :: rest => .wild :: wildScan rest
  | i :: rest => i :: wildScan rest
  | [] => []

/-! ### The compiled line and its matching semantics -/

/-- Capture table (JS object mapping capture names to strings). -/
abbrev Caps := List (List Char × List Char)

def capsGet (caps : Caps) (k : List Char) : Option (List Char) := caps.lookup k

/-- Setting a key that is not yet present (the only way the source adds
to the table). -/
def capsSet (caps : Caps) (k v : List Char) : Caps := caps ++ [(k, v)]

/-- One regex fragment emitted by the compiler:
`lit c` is one regex-escaped literal character, `capAny n` is
`(?<n>.+)`, `boundLit s` is `(?:escapeRegex(s))`, `capRe n src` is
`(?<n>src)` for user-supplied `src`, `wild` is `.+`. -/
inductive Frag where
  | lit (c : Char)
  | capAny (name : List Char)
  | boundLit (s : List Char)
  | capRe (name : List Char) (src : List Char)
  | wild
  deriving DecidableEq, Repr

/-- A compiled expected line: either a whole-line user regex
(`/…/` line, anchored `^…$` by the source) or a fragment sequence
(likewise anchored). -/
inductive LinePat where
  | regex (src : List Char)
  | frags (fs : List Frag)
  deriving DecidableEq, Repr

/-- The fragment for one placeholder, and whether its name is recorded
in `keys` (`shouldCapture` in the source). -/
def phFrag (caps : Caps) (name : List Char) (spec : Option (List Char)) : Frag × Bool :=
  match spec with
  | none =>
    match capsGet caps name with
    | none => (.capAny name, true)
    | some prev => (.boundLit prev, false)
  | some s =>
    if s = ['*'] then (.capAny name, true)
    else if s.head? = some '/' ∧ s.getLast? = some '/' then
      (.capRe name (s.drop 1).dropLast, true)
    else (.capAny name, true)

/-- Fragments and capture keys of a tokenized line, in left-to-right
placeholder order (the order the source pushes into `keys`). -/
def compileItems (caps : Caps) : List Item → List Frag × List (List Char)
  | [] => ([], [])
  | .chr c :: rest =>
    let (fs, ks) := compileItems caps rest
    (.lit c :: fs, ks)
  | .wild :: rest =>
    let (fs, ks) := compileItems caps rest
    (.wild :: fs, ks)
  | .ph nm sp :: rest =>
    let (fs, ks) := compileItems caps rest
    let (frag, cap) := phFrag caps nm sp
    (frag :: fs, if cap then nm :: ks else ks)

/-- core.ts `compileExpectedLineToRegex`. -/
def compileExpectedLineToRegex (line : List Char) (caps : Caps) :
    LinePat × List (List Char) :=
  if 2 ≤ line.length ∧ line.head? = some '/' ∧ line.getLast? = some '/' then
    (.regex (line.drop 1).dropLast, [])
  else
    let (fs, ks) := compileItems caps (wildScan (scanPh line))
    (.frags fs, ks)

/-- Semantics oracle for user-supplied regex text: for a pattern source
and an input string, the candidate consumed prefix lengths in the JS
engine's preference order.  Only `/…/` lines and `…:/…/` capture specs
go through it; every fragment shape the compiler itself builds has fixed
semantics below. -/
abbrev Oracle := List Char → List Char → List Nat

/-- Named-group assignments produced by a line match (`m.groups`). -/
abbrev Groups := List (List Char × List Char)

/-- Backtracking helper for a greedy `.+`: try consumed lengths
`k, k-1, …, 1` and return the first one after which the continuation
succeeds, together with the consumed prefix. -/
def tryLens (cont : List Char → Option Groups) (as : List Char) :
    Nat → Option (List Char × Groups)
  | 0 => none
  | k + 1 =>
    match cont (as.drop (k + 1)) with
    | some gs => some (as.take (k + 1), gs)
    | none => tryLens cont as k

/-- Backtracking helper for a user-regex fragment: try the oracle's
candidate consumed lengths in order. -/
def tryOracle (cont : List Char → Option Groups) (as : List Char) :
    List Nat → Option (List Char × Groups)
  | [] => none
  | k :: ks =>
    match cont (as.drop k) with
    | some gs => some (as.take k, gs)
    | none => tryOracle cont as ks

/-- Anchored match of a fragment sequence against a whole string, with
the greedy backtracking semantics of the JS engine; returns the
named-group assignments on success. -/
def fragsMatch (o : Oracle) : List Frag → List Char → Option Groups
  | [], as => if as = [] then some [] else none
  | .lit c :: fs, as =>
    match as with
    | [] => none
    | a :: as2 => if a = c then fragsMatch o fs as2 else none
  | .boundLit s :: fs, as =>
    if s.isPrefixOf as then fragsMatch o fs (as.drop s.length) else none
  | .capAny n :: fs, as =>
    (tryLens (fragsMatch o fs) as as.length).map (fun (v, gs) => (n, v) :: gs)
  | .wild :: fs, as =>
    (tryLens (fragsMatch o fs) as as.length).map (·.2)
  | .capRe n src :: fs, as =>
    (tryOracle (fragsMatch o fs) as (o src as)).map (fun (v, gs) => (n, v) :: gs)

/-- Apply a compiled line pattern to one actual line (`a.match(re)`),
returning the named groups on success. -/
def applyCompiled (o : Oracle) (pat : LinePat) (a : List Char) : Option Groups :=
  match pat with
  | .regex src => if (o src a).contains a.length then some [] else none
  | .frags fs => fragsMatch o fs a

/-! ### matchLines (core.ts) -/

/-- The distinguishable failure diagnostics of `matchLines` (the source
renders them as strings; the payloads here are exactly the data
interpolated into those strings). -/
inductive Diag where
  | ellipsisNoAlign
  | missingActual (e : List Char)
  | lineMismatch (e a : List Char)
  | captureMismatch (k prev got : List Char)
  | extraActual (a : List Char)
  | outOfFuel
  deriving DecidableEq, Repr

/-- Result of `matchLines` (`{ ok: boolean; msg?: string }`). -/
inductive MRes where
  | ok
  | fail (d : Diag)
  deriving DecidableEq, Repr

/-- The `for (const k of keys)` loop after a successful line match:
record unbound captures, fail on a conflicting rebinding.  The table
returned on failure keeps the keys already written by this loop, exactly
as the in-place JS mutation does. -/
def applyKeys : List (List Char) → Groups → Caps → Caps × Option Diag
  | [], _, caps => (caps, none)
  | k :: ks, gs, caps =>
    let val := (gs.lookup k).getD []
    match capsGet caps k with
    | none => applyKeys ks gs (capsSet caps k val)
    | some prev =>
      if prev = val then applyKeys ks gs caps
      else (caps, some (.captureMismatch k prev val))

/-- `e.trim()` equals `...` or `[...]`: the line is a multi-line
wildcard. -/
def isWildLine (e : List Char) : Bool :=
  jsTrim e = ['['] ++ ['.', '.', '.'] ++ [']'] ∨ jsTrim e = ['.', '.', '.']

/-- The wildcard probe loop `for (let k = j; k <= actual.length; k++)`:
try the predicate on every suffix of the actual lines (consuming
0, 1, 2, … lines), succeeding on the first success. -/
def firstOkSuffix (p : List (List Char) → Bool) : List (List Char) → Bool
  | [] => p []
  | a :: as => p (a :: as) || firstOkSuffix p as

/-- Fueled model of core.ts `matchLines`.  The source's sequential
`i++/j++` scan and its recursive wildcard probes both become recursive
calls here; the fuel decreases by one per expected line, so
`expected.length + 1` fuel (supplied by `matchLines`) always suffices
and the `outOfFuel` branch is unreachable from `matchLines`.
Re-normalizing already-normalized lines is a no-op (`normLine` is
idempotent), so routing the inner loop through the top of the function
preserves the source's behavior.  The returned table is the state of
the caller-visible JS `caps` object after the call: the wildcard
branches run their probes on copies (`\x7b ...caps \x7d`), so from a
wildcard onward the caller's table is returned unchanged. -/
def mlF (o : Oracle) : Nat → List (List Char) → List (List Char) → Caps → MRes × Caps
  | 0, _, _, caps => (.fail .outOfFuel, caps)
  | fuel + 1, expectedRaw, actualRaw, caps =>
    let expected := expectedRaw.map normLine
    let actual := actualRaw.map normLine
    match expected with
    | [] =>
      match actual with
      | [] => (.ok, caps)
      | a :: _ => (.fail (.extraActual a), caps)
    | e :: rest =>
      if isWildLine e then
        if rest = [] then (.ok, caps)
        else if firstOkSuffix (fun suf => (mlF o fuel rest suf caps).1 = .ok) actual then
          (.ok, caps)
        else (.fail .ellipsisNoAlign, caps)
      else
        match actual with
        | [] => (.fail (.missingActual e), caps)
        | a :: as =>
          let (pat, keys) := compileExpectedLineToRegex e caps
          match applyCompiled o pat a with
          | none => (.fail (.lineMismatch e a), caps)
          | some gs =>
            match applyKeys keys gs caps with
            | (caps2, some d) => (.fail d, caps2)
            | (caps2, none) => mlF o fuel rest as caps2

/-- core.ts `matchLines`. -/
def matchLines (o : Oracle) (expectedRaw actualRaw : List (List Char)) (caps : Caps) :
    MRes × Caps :=
  mlF o (expectedRaw.length + 1) expectedRaw actualRaw caps

/-! ### Numbers as text -/

/-- Decimal digit character (only applied to arguments below 10). -/
def digitChar (d : Nat) : Char :=
  match d with
  | 0 => '0' | 1 => '1' | 2 => '2' | 3 => '3' | 4 => '4'
  | 5 => '5' | 6 => '6' | 7 => '7' | 8 => '8' | 9 => '9'
  | _ => '0'

/-- Fueled decimal rendering of a natural number. -/
def natToCharsF : Nat → Nat → List Char
  | 0, _ => []
  | f + 1, n => if n < 10 then [digitChar n] else natToCharsF f (n / 10) ++ [digitChar (n % 10)]

/-- JS `${n}` for a non-negative integer. -/
def natToChars (n : Nat) : List Char := natToCharsF (n + 1) n

/-- JS `${n}` for an integer (used to build marker byte strings). -/
def intToChars (n : Int) : List Char :=
  if n < 0 then '-' :: natToChars n.natAbs else natToChars n.natAbs

/-- Value of a nonempty string of decimal digits. -/
def digitsToNat (ds : List Char) : Nat :=
  ds.foldl (fun acc c => acc * 10 + (c.val.toNat - 48)) 0

/-! ### OSC 133 markers (cmdSession.ts / markdown.ts)

`OSC_133_D_PATTERN = /\x1b\]133;D(?:;(-?\d+))?\x07/`
`OSC_133_A_PATTERN = /\x1b\]133;A\x07/`
`OSC_133_ANY_PATTERN = /\x1b\]133;[A-Z](?:;[^\x07]*)?\x07/g` -/

/-- Anchored attempt of the Done-marker pattern: returns the optional
exit-code group (as an integer) on success. -/
def matchDAt (cs : List Char) : Option (Option Int) :=
  match cs with
  | '\x1b' :: ']' :: '1' :: '3' :: '3' :: ';' :: 'D' :: rest =>
    -- the optional `(?:;(-?\d+))?` group is tried first; if it cannot
    -- complete, the pattern requires the BEL immediately after `D`
    (match rest with
     | ';' :: r2 =>
       let (neg, r3) := match r2 with
         | '-' :: r3 => (true, r3)
         | _ => (false, r2)
       let ds := r3.takeWhile Char.isDigit
       let r4 := r3.dropWhile Char.isDigit
       if ds = [] then none
       else
         match r4 with
         | b :: _ =>
           if b = bel then
             some (some (if neg then -(digitsToNat ds : Int) else (digitsToNat ds : Int)))
           else none
         | [] => none
     | b :: _ => if b = bel then some none else none
     | [] => none)
  | _ => none

/-- First match of the Done-marker pattern: its optional exit code and
its start index (`match.index`). -/
def findOscD : List Char → Nat → Option (Option Int × Nat)
  | [], _ => none
  | c :: rest, i =>
    match matchDAt (c :: rest) with
    | some code => some (code, i)
    | none => findOscD rest (i + 1)

/-- Anchored attempt of the Ready-marker pattern. -/
def matchAAt : List Char → Bool
  | '\x1b' :: ']' :: '1' :: '3' :: '3' :: ';' :: 'A' :: b :: _ => b = bel
  | _ => false

/-- `OSC_133_A_PATTERN.test(s)`. -/
def hasOscA : List Char → Bool
  | [] => false
  | c :: rest => matchAAt (c :: rest) || hasOscA rest

/-- `[^\x07]*\x07`: skip to just past the first BEL, if any. -/
def skipToBel : List Char → Option (List Char)
  | [] => none
  | c :: rest => if c = bel then some rest else skipToBel rest

/-- The common introducer of every OSC 133 sequence. -/
def oscIntro : List Char := [esc, ']', '1', '3', '3', ';']

/-- Anchored attempt of `OSC_133_ANY_PATTERN`: the remainder after the
matched marker. -/
def matchAnyOscAt (cs : List Char) : Option (List Char) :=
  if cs.take 6 = oscIntro then
    match cs.drop 6 with
    | c :: rest =>
      if 'A' ≤ c ∧ c ≤ 'Z' then
        match rest with
        | b0 :: r2 =>
          if b0 = ';' then skipToBel r2
          else if b0 = bel then some r2 else none
        | [] => none
      else none
    | [] => none
  else none

/-- Fueled single pass of `s.replace(OSC_133_ANY_PATTERN, "")`. -/
def stripOscF : Nat → List Char → List Char
  | _, [] => []
  | 0, cs => cs
  | f + 1, c :: rest =>
    match matchAnyOscAt (c :: rest) with
    | some r => stripOscF f r
    | none => c :: stripOscF f rest

/-- `s.replace(OSC_133_ANY_PATTERN, "")`. -/
def stripOsc133 (s : List Char) : List Char := stripOscF s.length s

/-- The Done-marker byte string with an optional exit code. -/
def mkOscD (code : Option Int) : List Char :=
  '\x1b' :: ']' :: '1' :: '3' :: '3' :: ';' :: 'D' ::
    ((match code with
      | some n => ';' :: intToChars n
      | none => []) ++ [bel])

/-- The Ready-marker byte string. -/
def mkOscA : List Char :=
  '\x1b' :: ']' :: '1' :: '3' :: '3' :: ';' :: 'A' :: [bel]

/-! ### Executor wait loops (cmdSession.ts `CmdSession.execute`,
markdown.ts `PtySession.execute`)

One iteration of the polling wait loop only observes the buffers and
three boolean comparisons on wall-clock quantities; a tick abstracts
exactly those observations. -/

/-- The observations one wait-loop iteration makes. -/
structure WaitTick where
  stdoutBuf : List Char
  stderrBuf : List Char
  /-- `silenceTime >= this.minWait` at this iteration. -/
  silenceGeMin : Bool
  /-- `currentLen > 0` at this iteration. -/
  hasOutput : Bool
  /-- `elapsed >= this.maxWait` at this iteration. -/
  elapsedGeMax : Bool
  deriving DecidableEq, Repr

/-- One iteration of the `CmdSession.execute` wait loop (cmdSession.ts,
OSC-capable version): `some c` means the loop breaks now with
`exitCode = c`, `none` means it sleeps and polls again.  In OSC mode the
break on the Done marker additionally requires a Ready marker at or
after the Done match; the silence check is skipped entirely.  The
`exitCode` variable is assigned whenever the Done pattern matches, so a
`maxWait` break returns the last Done code seen (default 0). -/
def cmdLoopDecision (useOsc133 : Bool) (t : WaitTick) : Option Int :=
  if useOsc133 then
    match findOscD t.stdoutBuf 0 with
    | some (c, i) =>
      if hasOscA (t.stdoutBuf.drop i) then some (c.getD 0)
      else if t.elapsedGeMax then some (c.getD 0)
      else none
    | none => if t.elapsedGeMax then some 0 else none
  else
    if t.silenceGeMin ∧ t.hasOutput then some 0
    else if t.elapsedGeMax then some 0 else none

/-- One iteration of the `PtySession.execute` wait loop (markdown.ts):
the Done marker alone breaks immediately with its exit code. -/
def ptyLoopDecision (t : WaitTick) : Option Int :=
  match findOscD t.stdoutBuf 0 with
  | some (c, _) => some (c.getD 0)
  | none =>
    if t.silenceGeMin ∧ t.hasOutput then some 0
    else if t.elapsedGeMax then some 0 else none

/-- Run a wait loop over a tick sequence: the first tick on which the
decision fires ends the loop with that exit code and that tick's
buffers. -/
def runWaitLoop (dec : WaitTick → Option Int) : List WaitTick → Option (Int × WaitTick)
  | [] => none
  | t :: ts =>
    match dec t with
    | some c => some (c, t)
    | none => runWaitLoop dec ts

/-- An executor result (`ShellResult`). -/
structure SessRes where
  stdout : List Char
  stderr : List Char
  exitCode : Int
  deriving DecidableEq, Repr

/-- Result assembly of `CmdSession.execute` once the wait loop breaks:
OSC markers are stripped from both streams only in OSC mode. -/
def cmdExecuteModel (useOsc133 : Bool) (ticks : List WaitTick) : Option SessRes :=
  (runWaitLoop (cmdLoopDecision useOsc133) ticks).map fun (c, t) =>
    if useOsc133 then ⟨stripOsc133 t.stdoutBuf, stripOsc133 t.stderrBuf, c⟩
    else ⟨t.stdoutBuf, t.stderrBuf, c⟩

/-- markdown.ts `ANSI_ESCAPE_PATTERN = /\x1b\[[0-9;]*[A-Za-z]/g`:
anchored attempt, remainder on success. -/
def matchAnsiAt (cs : List Char) : Option (List Char) :=
  match cs with
  | '\x1b' :: '[' :: rest =>
    let r2 := rest.dropWhile (fun c => c.isDigit ∨ c = ';')
    match r2 with
    | c :: r3 => if c.isAlpha then some r3 else none
    | [] => none
  | _ => none

/-- Fueled single pass of `s.replace(ANSI_ESCAPE_PATTERN, "")`. -/
def stripAnsiF : Nat → List Char → List Char
  | _, [] => []
  | 0, cs => cs
  | f + 1, c :: rest =>
    match matchAnsiAt (c :: rest) with
    | some r => stripAnsiF f r
    | none => c :: stripAnsiF f rest

def stripAnsiAll (s : List Char) : List Char := stripAnsiF s.length s

/-- `s.replace(/\r/g, "\n")` (applied after the CRLF pass in
`PtySession.execute`). -/
def cr2lf (s : List Char) : List Char := s.map (fun c => if c = '\r' then '\n' else c)

/-- JS `Array.prototype.join("\n")`. -/
def joinNl : List (List Char) → List Char
  | [] => []
  | [l] => l
  | l :: ls => l ++ '\n' :: joinNl ls

/-- JS `String.prototype.includes`: the needle occurs as a contiguous
substring. -/
def hasSub (needle : List Char) : List Char → Bool
  | [] => needle.isPrefixOf []
  | c :: rest => needle.isPrefixOf (c :: rest) || hasSub needle rest

/-- Output post-processing of `PtySession.execute` (markdown.ts
376-394): strip OSC 133 markers, optionally strip ANSI escapes,
normalize `\r\n` and `\r` to `\n`, and drop the first line when it
contains the echoed command. -/
def ptyProcessOutput (stripAnsiFlag : Bool) (buf command : List Char) : List Char :=
  let s1 := stripOsc133 buf
  let s2 := if stripAnsiFlag then stripAnsiAll s1 else s1
  let s3 := cr2lf (crlf2lf s2)
  let lines := splitNl s3
  let lines2 :=
    match lines with
    | l0 :: rest => if hasSub command l0 then rest else lines
    | [] => lines
  joinNl lines2

/-- Result of `PtySession.execute` once the wait loop breaks
(stderr is always empty: the PTY merges the streams). -/
def ptyExecuteModel (stripAnsiFlag : Bool) (command : List Char) (ticks : List WaitTick) :
    Option SessRes :=
  (runWaitLoop ptyLoopDecision ticks).map fun (c, t) =>
    ⟨ptyProcessOutput stripAnsiFlag t.stdoutBuf command, [], c⟩

/-- The timeout branch of `bunShell` (integrations/bun.ts 456-474): the
race lost to the timer, the process is killed, accumulated output is not
recovered (the stream promises never resolved), and the result is the
fixed timeout value with exit code 124. -/
structure OneShotTimeout where
  res : SessRes
  killed : Bool
  deriving DecidableEq, Repr

def bunShellTimeoutModel (timeoutMs : Nat) : OneShotTimeout :=
  { res := ⟨[], "Command timed out after ".data ++ natToChars timeoutMs ++ "ms".data, 124⟩
    killed := true }

/-! ### runBlock output normalization (executor.ts 70-79) -/

/-- The trailing-empty-line popping loop of `runBlock`. -/
def dropTrailingBlankLines (xs : List (List Char)) : List (List Char) :=
  (xs.reverse.dropWhile (· = [])).reverse

/-- What `runBlock` hands to matching for one stream: `splitNorm` of the
raw text, then the trailing blank lines popped. -/
def runBlockNormalize (raw : List Char) : List (List Char) :=
  dropTrailingBlankLines (splitNorm raw)

/-! ### parseBlock (core.ts 80-140) -/

/-- The exit-code line pattern `/^\[(\d+)\]\s*$/`. -/
def exitLineNum (l : List Char) : Option Nat :=
  match l with
  | '[' :: rest =>
    let ds := rest.takeWhile Char.isDigit
    let r2 := rest.dropWhile Char.isDigit
    if ds = [] then none
    else
      match r2 with
      | ']' :: r3 => if r3.all isJsSpace then some (digitsToNat ds) else none
      | _ => none
  | _ => none

structure Expect where
  stdout : List (List Char)
  stderr : List (List Char)
  exit : Option Nat
  deriving DecidableEq, Repr

structure Step where
  cmd : List Char
  expected : Expect
  deriving DecidableEq, Repr

structure ParsedBlock where
  commands : List (List Char)
  expect : Expect
  steps : List Step
  deriving DecidableEq, Repr

/-- `finalizeStep`: push the accumulated step (with trailing empty
expectation lines popped) if a command is open; otherwise do nothing —
in that case the accumulators are *not* cleared and carry over. -/
def finalizeStep (cur : Option (List Char)) (eo ee : List (List Char)) (ex : Option Nat) :
    List Step :=
  match cur with
  | none => []
  | some c => [⟨c, ⟨dropTrailingBlankLines eo, dropTrailingBlankLines ee, ex⟩⟩]

/-- `raw.startsWith("$ ")` prefix. -/
def cmdPre : List Char := ['$', ' ']

/-- `raw.startsWith("> ")` prefix. -/
def contPre : List Char := ['>', ' ']

/-- `raw.startsWith("! ")` prefix. -/
def errPre : List Char := ['!', ' ']

/-- The line loop of `parseBlock`, with the mutable state
(`currentCmd`, `expOut`, `expErr`, `expExit`, `steps`) threaded
explicitly (`raw.drop 2` is the source's `raw.slice(2)`). -/
def parseBlockGo : List (List Char) → Option (List Char) → List (List Char) →
    List (List Char) → Option Nat → List Step → List Step
  | [], cur, eo, ee, ex, steps => steps ++ finalizeStep cur eo ee ex
  | raw :: rest, cur, eo, ee, ex, steps =>
    if cmdPre.isPrefixOf raw then
      match cur with
      | some _ => parseBlockGo rest (some (raw.drop 2)) [] [] none (steps ++ finalizeStep cur eo ee ex)
      | none => parseBlockGo rest (some (raw.drop 2)) eo ee ex steps
    else if contPre.isPrefixOf raw then
      match cur with
      | some c => parseBlockGo rest (some (c ++ '\n' :: raw.drop 2)) eo ee ex steps
      | none => parseBlockGo rest cur (eo ++ [raw]) ee ex steps
    else if errPre.isPrefixOf raw then
      parseBlockGo rest cur eo (ee ++ [raw.drop 2]) ex steps
    else
      match exitLineNum raw with
      | some n => parseBlockGo rest cur eo ee (some n) steps
      | none => parseBlockGo rest cur (eo ++ [raw]) ee ex steps

/-- core.ts `parseBlock`. -/
def parseBlock (body : List Char) : ParsedBlock :=
  let steps := parseBlockGo (splitNl body) none [] [] none []
  { commands := steps.map (·.cmd)
    expect :=
      { stdout := steps.flatMap (·.expected.stdout)
        stderr := steps.flatMap (·.expected.stderr)
        exit := (steps.getLast?).bind (·.expected.exit) }
    steps := steps }

/-! ### JS numbers and `parseInfo` (core.ts 20-78) -/

/-- A non-NaN JS number (NaN is `none` at the `jsNumber` level). -/
inductive JsNum where
  | fin (q : ℚ)
  | posInf
  | negInf
  deriving DecidableEq, Repr

/-- JS `n > 0` for a non-NaN number. -/
def JsNum.isPos : JsNum → Bool
  | .fin q => 0 < q
  | .posInf => true
  | .negInf => false

/-- JS `n >= 0` for a non-NaN number. -/
def JsNum.isNonneg : JsNum → Bool
  | .fin q => 0 ≤ q
  | .posInf => true
  | .negInf => false

/-- A nonempty all-decimal-digit string. -/
def parseDigits (ds : List Char) : Option Nat :=
  if ds ≠ [] ∧ ds.all Char.isDigit then some (digitsToNat ds) else none

def pow10 (e : Int) : ℚ :=
  if 0 ≤ e then ((10 : ℚ) ^ e.toNat) else 1 / (10 : ℚ) ^ (-e).toNat

/-- Decimal mantissa: `Digits` or `Digits.Digits?` or `.Digits`. -/
def parseDecMantissa (m : List Char) : Option ℚ :=
  let ip := m.takeWhile (· ≠ '.')
  match m.dropWhile (· ≠ '.') with
  | [] => (parseDigits ip).map (fun n => (n : ℚ))
  | '.' :: fp =>
    if ip.all Char.isDigit ∧ fp.all Char.isDigit ∧ (ip ≠ [] ∨ fp ≠ []) then
      some ((digitsToNat ip : ℚ) + (digitsToNat fp : ℚ) / (10 : ℚ) ^ fp.length)
    else none
  | _ => none

/-- Unsigned decimal literal with optional exponent part. -/
def parseUnsignedDec (s : List Char) : Option ℚ :=
  let m := s.takeWhile (fun c => ¬(c = 'e' ∨ c = 'E'))
  match s.dropWhile (fun c => ¬(c = 'e' ∨ c = 'E')) with
  | [] => parseDecMantissa m
  | _ :: etail =>
    let (esign, ed) : Int × List Char :=
      match etail with
      | '+' :: r => (1, r)
      | '-' :: r => (-1, r)
      | r => (1, r)
    match parseDecMantissa m, parseDigits ed with
    | some q, some n => some (q * pow10 (esign * n))
    | _, _ => none

def hexVal (c : Char) : Option Nat :=
  if c.isDigit then some (c.val.toNat - 48)
  else if 'a' ≤ c ∧ c ≤ 'f' then some (c.val.toNat - 87)
  else if 'A' ≤ c ∧ c ≤ 'F' then some (c.val.toNat - 55)
  else none

def octVal (c : Char) : Option Nat :=
  if '0' ≤ c ∧ c ≤ '7' then some (c.val.toNat - 48) else none

def binVal (c : Char) : Option Nat :=
  if c = '0' ∨ c = '1' then some (c.val.toNat - 48) else none

/-- A nonempty digit string in a given radix. -/
def parseRadixNat (radix : Nat) (dv : Char → Option Nat) (ds : List Char) : Option Nat :=
  match ds with
  | [] => none
  | _ =>
    ds.foldl
      (fun acc c =>
        match acc, dv c with
        | some a, some d => some (a * radix + d)
        | _, _ => none)
      (some 0)

/-- Sign-free part of a decimal `Number(...)` conversion. -/
def jsDecNumber (s : List Char) : Option JsNum :=
  match s with
  | '+' :: r => (parseUnsignedDec r).map (.fin ·)
  | '-' :: r => (parseUnsignedDec r).map (fun q => .fin (-q))
  | r => (parseUnsignedDec r).map (.fin ·)

/-- JS `Number(string)` on whitespace-free strings (the values handled
by `parseInfo` come from `\S+` matches); `none` is NaN. -/
def jsNumber (s : List Char) : Option JsNum :=
  match s with
  | [] => some (.fin 0)
  | _ =>
    if s = ("Infinity").data ∨ s = ("+Infinity").data then some .posInf
    else if s = ("-Infinity").data then some .negInf
    else
      match s with
      | '0' :: p :: rest =>
        if p = 'x' ∨ p = 'X' then (parseRadixNat 16 hexVal rest).map (fun n => .fin n)
        else if p = 'o' ∨ p = 'O' then (parseRadixNat 8 octVal rest).map (fun n => .fin n)
        else if p = 'b' ∨ p = 'B' then (parseRadixNat 2 binVal rest).map (fun n => .fin n)
        else jsDecNumber s
      | _ => jsDecNumber s

/-- A dynamically-typed option value: the pass-through branch of
`parseInfo` converts the strings `true`/`false` to booleans. -/
inductive JsVal where
  | b (v : Bool)
  | s (v : List Char)
  deriving DecidableEq, Repr

def jsValOf (v : List Char) : JsVal :=
  if v = ("true").data then .b true
  else if v = ("false").data then .b false
  else .s v

/-- JS object property assignment on an association list: overwrite an
existing key, else append. -/
def objSet {β : Type} (l : List (List Char × β)) (k : List Char) (v : β) :
    List (List Char × β) :=
  if (l.lookup k).isSome then l.map (fun p => if p.1 = k then (k, v) else p)
  else l ++ [(k, v)]

/-- The option bag built by `parseInfo`.  `reset` and `pty` can be
rewritten by the dynamic pass-through assignment, hence `JsVal`. -/
structure BlockOptions where
  reset : Option JsVal := none
  pty : Option JsVal := none
  cmd : Option (List Char) := none
  exit : Option JsNum := none
  timeout : Option JsNum := none
  minWait : Option JsNum := none
  maxWait : Option JsNum := none
  startupDelay : Option JsNum := none
  cwd : Option (List Char) := none
  env : Option (List (List Char × List Char)) := none
  extras : List (List Char × JsVal) := []
  deriving DecidableEq, Repr

/-- Word-bounded literal occurrence at the head: `\b` before (previous
character not a word character), the literal, `\b` after (next character
not a word character or end).  The searched literals start and end with
word characters. -/
def boundedAt (w : List Char) (prevWord : Bool) (cs : List Char) : Bool :=
  !prevWord && w.isPrefixOf cs &&
    (match (cs.drop w.length).head? with
     | none => true
     | some c => !isWordChar c)

/-- `new RegExp("\\b" + w + "\\b").test(cs)` for a literal `w`. -/
def hasBoundedRun (w : List Char) (prevWord : Bool) : List Char → Bool
  | [] => false
  | c :: rest => boundedAt w prevWord (c :: rest) || hasBoundedRun w (isWordChar c) rest

def hasBounded (w cs : List Char) : Bool := hasBoundedRun w false cs

/-- Anchored attempt of `/\bcmd="([^"]+)"/`: the quoted value. -/
def cmdQuotedAt (prevWord : Bool) (cs : List Char) : Option (List Char) :=
  if prevWord then none
  else
    match cs with
    | 'c' :: 'm' :: 'd' :: '=' :: '"' :: rest =>
      let v := rest.takeWhile (· ≠ '"')
      if v = [] then none
      else
        match rest.dropWhile (· ≠ '"') with
        | '"' :: _ => some v
        | _ => none
    | _ => none

/-- First match of `/\bcmd="([^"]+)"/`. -/
def findCmdQuoted (prevWord : Bool) : List Char → Option (List Char)
  | [] => none
  | c :: rest =>
    match cmdQuotedAt prevWord (c :: rest) with
    | some v => some v
    | none => findCmdQuoted (isWordChar c) rest

/-- Anchored attempt of `/\b\w+=\S+/`: key, value, remainder, and the
word-character status of the character preceding the remainder. -/
def pairAt (prevWord : Bool) (cs : List Char) :
    Option (List Char × List Char × List Char × Bool) :=
  if prevWord then none
  else
    match cs with
    | c :: rest =>
      if isWordChar c then
        let w := c :: rest.takeWhile isWordChar
        match rest.dropWhile isWordChar with
        | '=' :: r2 =>
          let v := r2.takeWhile (fun x => !isJsSpace x)
          let r3 := r2.dropWhile (fun x => !isJsSpace x)
          match v.getLast? with
          | none => none
          | some lastc => some (w, v, r3, isWordChar lastc)
        | _ => none
      else none
    | [] => none

/-- Fueled global scan of `/\b\w+=\S+/g` (`info.match(...)`), splitting
each match at its first `=` exactly as the source's
`kv.slice(0, idx)` / `kv.slice(idx + 1)` does: the key is the `\w+` run
and the value everything after the first `=`. -/
def scanPairsF : Nat → Bool → List Char → List (List Char × List Char)
  | _, _, [] => []
  | 0, _, _ => []
  | f + 1, prevWord, c :: rest =>
    match pairAt prevWord (c :: rest) with
    | some (k, v, r3, pw) => (k, v) :: scanPairsF f pw r3
    | none => scanPairsF f (isWordChar c) rest

def scanPairs (cs : List Char) : List (List Char × List Char) :=
  scanPairsF cs.length false cs

/-- `env=K=V,K2=V2` parsing: split on `,`, then each entry on the first
`=` with JS `split("=", 2)` (anything after a second `=` is dropped). -/
def parseEnv (v : List Char) : List (List Char × List Char) :=
  (v.splitOn ',').foldl
    (fun env ent =>
      match ent with
      | [] => env
      | _ =>
        match ent.splitOn '=' with
        | [] => env
        | ek :: rest =>
          if ek = [] then env else objSet env ek ((rest.head?).getD []))
    []

/-- The recognized option keys, as named constants (kept abstract so
that proofs can case on key equality without expanding character
lists). -/
def keyCmd : List Char := ("cmd").data

def keyExit : List Char := ("exit").data

def keyTimeout : List Char := ("timeout").data

def keyMinWait : List Char := ("minWait").data

def keyMaxWait : List Char := ("maxWait").data

def keyStartupDelay : List Char := ("startupDelay").data

def keyCwd : List Char := ("cwd").data

def keyEnv : List Char := ("env").data

def keyReset : List Char := ("reset").data

def keyPty : List Char := ("pty").data

/-- Processing of one `k=v` pair in `parseInfo`'s loop. -/
def applyPair (o : BlockOptions) (k v : List Char) : BlockOptions :=
  if v = [] then o
  else if k = keyCmd then o
  else if k = keyExit then
    match jsNumber v with
    | some n => { o with exit := some n }
    | none => o
  else if k = keyTimeout then
    match jsNumber v with
    | some n => if n.isPos then { o with timeout := some n } else o
    | none => o
  else if k = keyMinWait then
    match jsNumber v with
    | some n => if n.isPos then { o with minWait := some n } else o
    | none => o
  else if k = keyMaxWait then
    match jsNumber v with
    | some n => if n.isPos then { o with maxWait := some n } else o
    | none => o
  else if k = keyStartupDelay then
    match jsNumber v with
    | some n => if n.isNonneg then { o with startupDelay := some n } else o
    | none => o
  else if k = keyCwd then { o with cwd := some v }
  else if k = keyEnv then { o with env := some (parseEnv v) }
  else if k = keyReset then { o with reset := some (jsValOf v) }
  else if k = keyPty then { o with pty := some (jsValOf v) }
  else { o with extras := objSet o.extras k (jsValOf v) }

/-- The literal searched by the `pty=false` flag test. -/
def wordPtyFalse : List Char := ("pty=false").data

/-- core.ts `parseInfo`. -/
def parseInfo (info : List Char) : BlockOptions :=
  if info = [] then {}
  else
    let o0 : BlockOptions := {}
    let o1 := if hasBounded keyReset info then { o0 with reset := some (.b true) } else o0
    let o2 :=
      if hasBounded wordPtyFalse info then { o1 with pty := some (.b false) }
      else if hasBounded keyPty info then { o1 with pty := some (.b true) }
      else o1
    let o3 :=
      match findCmdQuoted false info with
      | some v => { o2 with cmd := some v }
      | none => o2
    (scanPairs info).foldl (fun o kv => applyPair o kv.1 kv.2) o3

/-- api.ts 453: `const wantExit = expect.exit ?? opts.exit ?? 0`. -/
def resolveWantExit (stepExit : Option Nat) (optExit : Option JsNum) : JsNum :=
  match stepExit with
  | some n => .fin n
  | none => optExit.getD (.fin 0)

/-! ### Test identity and the per-file block loop (markdown.ts
`generateTestId`, api.ts `testFile` 397-445) -/

/-- markdown.ts `generateTestId`: derive the test id from the nearest
heading's slug (already lower-cased with dashes replaced by spaces by
the caller-side slugger, which is external), counting blocks per slug. -/
def generateTestId (slug : Option (List Char)) (blockIndex : Nat)
    (counts : List (List Char × Nat)) : List Char × List (List Char × Nat) :=
  match slug with
  | none => (("block-").data ++ natToChars (blockIndex + 1), counts)
  | some sl =>
    let c := (counts.lookup sl).getD 0
    let counts2 := objSet counts sl (c + 1)
    (if 0 < c then sl ++ '-' :: natToChars (c + 1) else sl, counts2)

/-- A fenced block of one document, with the slug of its nearest
heading (`none` when no heading precedes it). -/
structure DocBlock where
  slug : Option (List Char)
  body : List Char
  deriving DecidableEq, Repr

inductive DocOutcome where
  /-- `process.exit(1)` on a duplicate id: the index and id of the
  offending block, and the blocks whose commands had already been
  executed before the abort. -/
  | aborted (index : Nat) (dupId : List Char) (executed : List DocBlock)
  | completed (executed : List DocBlock)
  deriving DecidableEq, Repr

/-- The block loop of api.ts `testFile`, reduced to the claim-relevant
events: per block, in source order — derive the test id, abort on a
duplicate, skip blocks without commands, otherwise execute
(`runBlock`).  Hooks, matching and reporting do not affect identity or
execution order and are elided. -/
def testFileLoop : List DocBlock → Nat → List (List Char × Nat) → List (List Char) →
    List DocBlock → DocOutcome
  | [], _, _, _, acc => .completed acc
  | b :: bs, i, counts, seen, acc =>
    let (tid, counts2) := generateTestId b.slug i counts
    if tid ∈ seen then .aborted i tid acc
    else if (parseBlock b.body).commands = [] then
      testFileLoop bs (i + 1) counts2 (tid :: seen) acc
    else testFileLoop bs (i + 1) counts2 (tid :: seen) (acc ++ [b])

def testFileRun (bs : List DocBlock) : DocOutcome := testFileLoop bs 0 [] [] []

/-! ### Statement ingredients -/

/-- The oracle for inputs that contain no user-supplied regex text (any
value would do on such inputs). -/
def noUserRegex : Oracle := fun _ _ => []

/-- The literal text of a reuse placeholder. -/
def phTok (name : List Char) : List Char :=
  lbrace :: lbrace :: name ++ [rbrace, rbrace]

/-- The literal text of a `:*` capture placeholder. -/
def phStarTok (name : List Char) : List Char :=
  lbrace :: lbrace :: name ++ ':' :: '*' :: [rbrace, rbrace]

/-- A plain literal piece of an expected line: no placeholder braces, no
wildcard dots, and no NUL (the source's internal sentinel byte). -/
def cleanLit (p : List Char) : Prop := lbrace ∉ p ∧ '.' ∉ p ∧ '\x00' ∉ p

/-- A well-formed placeholder name (`[a-zA-Z_][\w-]*`). -/
def validName : List Char → Prop
  | [] => False
  | c :: cs => isNameStart c = true ∧ ∀ x ∈ cs, isNameChar x = true

/-- The validated-number invariant of `parseInfo`'s output: the three
wait options hold only strictly positive numbers, the startup delay only
non-negative ones. -/
def numOptsOk (o : BlockOptions) : Prop :=
  (∀ q, o.timeout = some q → q.isPos = true) ∧
  (∀ q, o.minWait = some q → q.isPos = true) ∧
  (∀ q, o.maxWait = some q → q.isPos = true) ∧
  (∀ q, o.startupDelay = some q → q.isNonneg = true)

end Mdtest

namespace Mdtest

/-! ## Helper lemmas -/

theorem dropWhile_self_idem {p : Char → Bool} (l : List Char) :
    (l.dropWhile p).dropWhile p = l.dropWhile p := by
  induction l with
  | nil => rfl
  | cons c t ih =>
    by_cases h : p c
    · simpa [List.dropWhile_cons, h] using ih
    · simp [List.dropWhile_cons, h]

theorem normLine_idem (s : List Char) : normLine (normLine s) = normLine s := by
  unfold normLine
  rw [List.reverse_reverse, dropWhile_self_idem]

theorem jsTrim_normLine (s : List Char) : jsTrim (normLine s) = jsTrim s := by
  unfold jsTrim
  rw [normLine_idem]

theorem isWildLine_normLine (e : List Char) : isWildLine (normLine e) = isWildLine e := by
  unfold isWildLine
  rw [jsTrim_normLine]

theorem map_normLine_idem (l : List (List Char)) :
    (l.map normLine).map normLine = l.map normLine := by
  rw [List.map_map]
  exact List.map_congr_left fun x _ => normLine_idem x

theorem mem_dropWhile_of_mem {p : Char → Bool} {c : Char} {l : List Char}
    (hm : c ∈ l) (hp : p c = false) : c ∈ l.dropWhile p := by
  induction l with
  | nil => cases hm
  | cons a t ih =>
    by_cases h : p a
    · rcases List.mem_cons.mp hm with rfl | hm2
      · rw [hp] at h; cases h
      · simpa [List.dropWhile_cons, h] using ih hm2
    · simpa [List.dropWhile_cons, h] using hm

theorem mem_normLine_of_mem {c : Char} {l : List Char}
    (hm : c ∈ l) (hp : isJsSpace c = false) : c ∈ normLine l := by
  unfold normLine
  rw [List.mem_reverse]
  exact mem_dropWhile_of_mem (List.mem_reverse.mpr hm) hp

theorem mem_jsTrim_of_mem {c : Char} {l : List Char}
    (hm : c ∈ l) (hp : isJsSpace c = false) : c ∈ jsTrim l :=
  mem_dropWhile_of_mem (mem_normLine_of_mem hm hp) hp

theorem isWild_false_of_brace {l : List Char} (h : lbrace ∈ l) : isWildLine l = false := by
  have hb : lbrace ∈ jsTrim l := mem_jsTrim_of_mem h (by decide)
  unfold isWildLine
  rw [decide_eq_false_iff_not]
  rintro (he | he) <;> rw [he] at hb <;> exact absurd hb (by decide)

theorem splitNl_ne_nil (s : List Char) : splitNl s ≠ [] := by
  cases s with
  | nil => simp [splitNl]
  | cons c t => by_cases h : c = '\n' <;> simp [splitNl, h]

theorem splitNl_nl (t : List Char) : splitNl ('\n' :: t) = [] :: splitNl t := by
  simp [splitNl]

theorem splitNl_cons_ne (c : Char) (t : List Char) (h : ¬ c = '\n') :
    splitNl (c :: t) = (c :: (splitNl t).headI) :: (splitNl t).tail := by
  simp [splitNl, h]

theorem normLine_cons (c : Char) (l : List Char) :
    normLine (c :: l) =
      if normLine l = [] then (if isJsSpace c then [] else [c]) else c :: normLine l := by
  unfold normLine
  rw [List.reverse_cons, List.dropWhile_append]
  by_cases h : (l.reverse.dropWhile isJsSpace).isEmpty
  · have h2 : l.reverse.dropWhile isJsSpace = [] := by simpa [List.isEmpty_iff] using h
    rw [if_pos h, h2]
    simp only [List.reverse_nil, if_pos rfl]
    by_cases sp : isJsSpace c <;> simp [List.dropWhile, sp]
  · have h2 : l.reverse.dropWhile isJsSpace ≠ [] := by simpa [List.isEmpty_iff] using h
    rw [if_neg h, if_neg (by simpa using h2), List.reverse_append]
    simp

/-- The heart of the CRLF claim: splitting after the single-pass CRLF
replacement and splitting directly give the same normalized lines (the
orphaned `\r` ends up trailing and is stripped by `normLine`). -/
theorem map_normLine_splitNl_crlf (u : List Char) :
    (splitNl (crlf2lf u)).map normLine = (splitNl u).map normLine := by
  induction u using crlf2lf.induct with
  | case1 => rfl
  | case2 c => rfl
  | case3 c1 c2 rest hcond ih =>
    obtain ⟨h1, h2⟩ := hcond
    subst h1; subst h2
    rw [show crlf2lf ('\r' :: '\n' :: rest) = '\n' :: crlf2lf rest from by simp [crlf2lf]]
    rw [splitNl_nl]
    rw [show splitNl ('\r' :: '\n' :: rest) = ['\r'] :: splitNl rest from by simp [splitNl]]
    simp only [List.map_cons]
    rw [ih]
    simp [show normLine ['\r'] = [] from by decide, show normLine [] = [] from rfl]
  | case4 c1 c2 rest hcond ih =>
    rw [show crlf2lf (c1 :: c2 :: rest) = c1 :: crlf2lf (c2 :: rest) from by
      simp [crlf2lf, hcond]]
    by_cases hc : c1 = '\n'
    · subst hc
      rw [splitNl_nl, splitNl_nl]
      simp only [List.map_cons]
      rw [ih]
    · rw [splitNl_cons_ne _ _ hc, splitNl_cons_ne _ _ hc]
      obtain ⟨a, as, ha⟩ := List.exists_cons_of_ne_nil (splitNl_ne_nil (crlf2lf (c2 :: rest)))
      obtain ⟨b, bs, hb⟩ := List.exists_cons_of_ne_nil (splitNl_ne_nil (c2 :: rest))
      have ih3 := ih
      rw [ha, hb] at ih3
      rw [ha, hb]
      simp only [List.map_cons, List.cons.injEq, List.headI, List.tail_cons] at ih3 ⊢
      exact ⟨by rw [normLine_cons, normLine_cons, ih3.1], ih3.2⟩

/-! ## C7 -/

/-- C7 — counterexample: the normalization applied before matching in
the pipe path is `splitNorm`, and `splitNorm` does not treat a bare
`\r` as a line ending: `"a\rb"` and `"a\nb"` differ only in a bare-CR
line ending yet normalize differently. -/
theorem claim_C7_counterexample :
    splitNorm ['a', '\r', 'b'] = [['a', '\r', 'b']] ∧
    splitNorm ['a', '\n', 'b'] = [['a'], ['b']] ∧
    splitNorm ['a', '\r', 'b'] ≠ splitNorm ['a', '\n', 'b'] := by decide

/-- C7 — amended: `splitNorm` strips trailing whitespace from every
line and normalizes `\r\n` (outputs differing only in `\r\n` versus
`\n` line endings normalize identically); a bare `\r` is converted to
`\n` only by the PTY executor's extra replacement pass before
`splitNorm`. -/
theorem claim_C7_normalization (s l : List Char) :
    (l ∈ splitNorm s → normLine l = l) ∧
    splitNorm (crlf2lf s) = splitNorm s ∧
    '\r' ∉ cr2lf s := by
  refine ⟨?_, ?_, ?_⟩
  · intro hm
    obtain ⟨x, _, hx⟩ := List.mem_map.mp hm
    rw [← hx]
    exact normLine_idem x
  · unfold splitNorm
    exact map_normLine_splitNl_crlf (crlf2lf s)
  · intro hm
    obtain ⟨c, _, hc⟩ := List.mem_map.mp hm
    by_cases h : c = '\r' <;> simp [h] at hc

/-- C7 — witness for the amended theorem at a concrete input. -/
theorem claim_C7_witness : normLine ['a'] = ['a'] :=
  (claim_C7_normalization ['a', ' ', '\n', 'b'] ['a']).1 (by decide)

/-! ## C10 -/

theorem numOptsOk_of_none (o : BlockOptions) (e1 : o.timeout = none)
    (e2 : o.minWait = none) (e3 : o.maxWait = none) (e4 : o.startupDelay = none) :
    numOptsOk o := by
  refine ⟨?_, ?_, ?_, ?_⟩ <;> intro q hq <;> simp_all

theorem numOptsOk_same (o2 o : BlockOptions) (h : numOptsOk o)
    (e1 : o2.timeout = o.timeout) (e2 : o2.minWait = o.minWait)
    (e3 : o2.maxWait = o.maxWait) (e4 : o2.startupDelay = o.startupDelay) :
    numOptsOk o2 := by
  obtain ⟨h1, h2, h3, h4⟩ := h
  exact ⟨fun q hq => h1 q (e1.symm.trans hq), fun q hq => h2 q (e2.symm.trans hq),
         fun q hq => h3 q (e3.symm.trans hq), fun q hq => h4 q (e4.symm.trans hq)⟩

theorem applyPair_numOk (o : BlockOptions) (k v : List Char)
    (h : numOptsOk o) : numOptsOk (applyPair o k v) := by
  unfold applyPair
  by_cases h0 : v = []
  · rwa [if_pos h0]
  rw [if_neg h0]
  by_cases hk1 : k = keyCmd
  · rwa [if_pos hk1]
  rw [if_neg hk1]
  by_cases hk2 : k = keyExit
  · rw [if_pos hk2]
    rcases hjs : jsNumber v with _ | n
    · exact h
    · exact numOptsOk_same _ o h rfl rfl rfl rfl
  rw [if_neg hk2]
  by_cases hk3 : k = keyTimeout
  · rw [if_pos hk3]
    rcases hjs : jsNumber v with _ | n
    · exact h
    · dsimp only
      by_cases hp : n.isPos = true
      · rw [if_pos hp]
        obtain ⟨h1, h2, h3, h4⟩ := h
        exact ⟨fun q hq => by cases hq; exact hp,
               fun q hq => h2 q hq, fun q hq => h3 q hq, fun q hq => h4 q hq⟩
      · rw [if_neg hp]; exact h
  rw [if_neg hk3]
  by_cases hk4 : k = keyMinWait
  · rw [if_pos hk4]
    rcases hjs : jsNumber v with _ | n
    · exact h
    · dsimp only
      by_cases hp : n.isPos = true
      · rw [if_pos hp]
        obtain ⟨h1, h2, h3, h4⟩ := h
        exact ⟨fun q hq => h1 q hq, fun q hq => by cases hq; exact hp,
               fun q hq => h3 q hq, fun q hq => h4 q hq⟩
      · rw [if_neg hp]; exact h
  rw [if_neg hk4]
  by_cases hk5 : k = keyMaxWait
  · rw [if_pos hk5]
    rcases hjs : jsNumber v with _ | n
    · exact h
    · dsimp only
      by_cases hp : n.isPos = true
      · rw [if_pos hp]
        obtain ⟨h1, h2, h3, h4⟩ := h
        exact ⟨fun q hq => h1 q hq, fun q hq => h2 q hq,
               fun q hq => by cases hq; exact hp, fun q hq => h4 q hq⟩
      · rw [if_neg hp]; exact h
  rw [if_neg hk5]
  by_cases hk6 : k = keyStartupDelay
  · rw [if_pos hk6]
    rcases hjs : jsNumber v with _ | n
    · exact h
    · dsimp only
      by_cases hp : n.isNonneg = true
      · rw [if_pos hp]
        obtain ⟨h1, h2, h3, h4⟩ := h
        exact ⟨fun q hq => h1 q hq, fun q hq => h2 q hq,
               fun q hq => h3 q hq, fun q hq => by cases hq; exact hp⟩
      · rw [if_neg hp]; exact h
  rw [if_neg hk6]
  by_cases hk7 : k = keyCwd
  · rw [if_pos hk7]; exact numOptsOk_same _ o h rfl rfl rfl rfl
  rw [if_neg hk7]
  by_cases hk8 : k = keyEnv
  · rw [if_pos hk8]; exact numOptsOk_same _ o h rfl rfl rfl rfl
  rw [if_neg hk8]
  by_cases hk9 : k = keyReset
  · rw [if_pos hk9]; exact numOptsOk_same _ o h rfl rfl rfl rfl
  rw [if_neg hk9]
  by_cases hk10 : k = keyPty
  · rw [if_pos hk10]; exact numOptsOk_same _ o h rfl rfl rfl rfl
  rw [if_neg hk10]
  exact numOptsOk_same _ o h rfl rfl rfl rfl

theorem foldl_applyPair_numOk (ps : List (List Char × List Char)) (o : BlockOptions)
    (h : numOptsOk o) :
    numOptsOk (ps.foldl (fun o kv => applyPair o kv.1 kv.2) o) := by
  induction ps generalizing o with
  | nil => exact h
  | cons p ps ih => exact ih _ (applyPair_numOk _ _ _ h)

theorem parseInfo_numOk (info : List Char) : numOptsOk (parseInfo info) := by
  unfold parseInfo
  split
  · exact numOptsOk_of_none _ rfl rfl rfl rfl
  · apply foldl_applyPair_numOk
    apply numOptsOk_of_none <;> (dsimp only; repeat' split) <;> rfl

/-- C10 — confirmed: `parseInfo` always returns (it is a total
function of its input), and it only sets `timeout`, `minWait`, `maxWait`
under a successful parse to a number strictly greater than 0,
`startupDelay` only to a number at least 0; invalid values for these
keys are ignored, so in particular `minWait=0` and `maxWait=0` cannot be
configured (`exit` is set under any non-NaN parse, in `applyPair`). -/
theorem claim_C10_parseinfo_validation (info : List Char) :
    (∀ q, (parseInfo info).timeout = some q → q.isPos = true) ∧
    (∀ q, (parseInfo info).minWait = some q → q.isPos = true) ∧
    (∀ q, (parseInfo info).maxWait = some q → q.isPos = true) ∧
    (∀ q, (parseInfo info).startupDelay = some q → q.isNonneg = true) ∧
    ((parseInfo info).minWait ≠ some (.fin 0) ∧ (parseInfo info).maxWait ≠ some (.fin 0)) ∧
    ((parseInfo (("minWait=0 maxWait=0 timeout=oops").data)).minWait = none ∧
     (parseInfo (("minWait=0 maxWait=0 timeout=oops").data)).maxWait = none ∧
     (parseInfo (("minWait=0 maxWait=0 timeout=oops").data)).timeout = none) := by
  obtain ⟨h1, h2, h3, h4⟩ := parseInfo_numOk info
  refine ⟨h1, h2, h3, h4, ⟨?_, ?_⟩, by decide⟩
  · intro hc
    have := h2 _ hc
    simp [JsNum.isPos] at this
  · intro hc
    have := h3 _ hc
    simp [JsNum.isPos] at this

/-- C10 — witness at a concrete info string. -/
theorem claim_C10_witness :
    (JsNum.fin 50).isPos = true ∧
    (parseInfo (("minWait=50").data)).minWait = some (.fin 50) :=
  ⟨(claim_C10_parseinfo_validation (("minWait=50").data)).2.1 (JsNum.fin 50) (by decide),
   by decide⟩

/-! ## C5 and C6 -/

theorem skipToBel_append {xs : List Char} (hx : bel ∉ xs) (b : List Char) :
    skipToBel (xs ++ bel :: b) = some b := by
  induction xs with
  | nil => simp [skipToBel]
  | cons c t ih =>
    have hc : ¬ c = bel := fun h => hx (h ▸ List.mem_cons_self c t)
    simp only [List.cons_append, skipToBel, if_neg hc]
    exact ih (fun h => hx (List.mem_cons_of_mem _ h))

theorem digitChar_ne_bel (d : Nat) : digitChar d ≠ bel := by
  unfold digitChar
  split <;> decide

theorem mem_natToCharsF {f n : Nat} {c : Char} (h : c ∈ natToCharsF f n) :
    ∃ d, c = digitChar d := by
  induction f generalizing n with
  | zero => cases h
  | succ f ih =>
    unfold natToCharsF at h
    split at h
    · exact ⟨n, by simpa using h⟩
    · rcases List.mem_append.mp h with h2 | h2
      · exact ih h2
      · exact ⟨n % 10, by simpa using h2⟩

theorem bel_not_mem_intToChars (n : Int) : bel ∉ intToChars n := by
  intro hm
  unfold intToChars at hm
  have digits : ∀ m : Nat, bel ∉ natToChars m := by
    intro m hmm
    obtain ⟨d, hd⟩ := mem_natToCharsF hmm
    exact digitChar_ne_bel d hd.symm
  split at hm
  · rcases List.mem_cons.mp hm with h | h
    · cases h
    · exact digits _ h
  · exact digits _ hm

theorem matchAnyOscAt_mkOscD (oc : Option Int) (b : List Char) :
    matchAnyOscAt (mkOscD oc ++ b) = some b := by
  cases oc with
  | none =>
    show matchAnyOscAt (esc :: ']' :: '1' :: '3' :: '3' :: ';' :: 'D' :: bel :: b) = some b
    unfold matchAnyOscAt
    rw [if_pos (by rfl)]
    show (if 'A' ≤ 'D' ∧ 'D' ≤ 'Z' then
        if bel = ';' then skipToBel b else if bel = bel then some b else none
      else none) = some b
    rw [if_pos (by decide), if_neg (by decide), if_pos rfl]
  | some n =>
    rw [show (mkOscD (some n) ++ b : List Char) =
        esc :: ']' :: '1' :: '3' :: '3' :: ';' :: 'D' :: ';' :: (intToChars n ++ bel :: b) from by
      simp [mkOscD, esc, bel]]
    unfold matchAnyOscAt
    rw [if_pos (by rfl)]
    show (if 'A' ≤ 'D' ∧ 'D' ≤ 'Z' then
        if ';' = ';' then skipToBel (intToChars n ++ bel :: b)
        else if ';' = bel then some (intToChars n ++ bel :: b) else none
      else none) = some b
    rw [if_pos (by decide), if_pos rfl]
    exact skipToBel_append (bel_not_mem_intToChars n) b

theorem matchAnyOscAt_mkOscA (b : List Char) :
    matchAnyOscAt (mkOscA ++ b) = some b := by
  show matchAnyOscAt (esc :: ']' :: '1' :: '3' :: '3' :: ';' :: 'A' :: bel :: b) = some b
  unfold matchAnyOscAt
  rw [if_pos (by rfl)]
  show (if 'A' ≤ 'A' ∧ 'A' ≤ 'Z' then
      if bel = ';' then skipToBel b else if bel = bel then some b else none
    else none) = some b
  rw [if_pos (by decide), if_neg (by decide), if_pos rfl]

theorem matchAnyOscAt_not_esc {c : Char} (l : List Char) (hc : ¬ c = esc) :
    matchAnyOscAt (c :: l) = none := by
  unfold matchAnyOscAt
  rw [if_neg]
  intro h
  have h2 : (c :: l).take 6 = c :: l.take 5 := rfl
  rw [h2] at h
  rw [show oscIntro = esc :: [']', '1', '3', '3', ';'] from rfl] at h
  exact hc (List.cons.injEq .. ▸ h).1

theorem skipToBel_shorter {cs r : List Char} (h : skipToBel cs = some r) :
    r.length < cs.length := by
  induction cs generalizing r with
  | nil => cases h
  | cons c t ih =>
    unfold skipToBel at h
    split at h
    · cases h
      simp
    · have := ih h
      simp only [List.length_cons]
      omega

theorem matchAnyOscAt_shorter {cs r : List Char} (h : matchAnyOscAt cs = some r) :
    r.length < cs.length := by
  unfold matchAnyOscAt at h
  by_cases htake : cs.take 6 = oscIntro
  case neg => rw [if_neg htake] at h; cases h
  rw [if_pos htake] at h
  have hlen : 6 ≤ cs.length := by
    have h2 := congrArg List.length htake
    rw [List.length_take] at h2
    simp [oscIntro] at h2
    omega
  rcases hd : cs.drop 6 with _ | ⟨c, rest⟩ <;> rw [hd] at h
  · cases h
  · have hrest : rest.length + 1 = cs.length - 6 := by
      have h2 := congrArg List.length hd
      rw [List.length_drop] at h2
      simp at h2
      omega
    dsimp only at h
    by_cases hAZ : 'A' ≤ c ∧ c ≤ 'Z'
    case neg => rw [if_neg hAZ] at h; cases h
    rw [if_pos hAZ] at h
    rcases rest with _ | ⟨b0, r2⟩
    · cases h
    · simp only [List.length_cons] at hrest
      dsimp only at h
      by_cases hsemi : b0 = ';'
      · rw [if_pos hsemi] at h
        have h3 := skipToBel_shorter h
        omega
      · rw [if_neg hsemi] at h
        by_cases hb : b0 = bel
        · rw [if_pos hb] at h
          cases h
          omega
        · rw [if_neg hb] at h
          cases h

theorem stripOscF_irrel : ∀ (n f g : Nat) (cs : List Char), cs.length ≤ n →
    cs.length ≤ f → cs.length ≤ g → stripOscF f cs = stripOscF g cs := by
  intro n
  induction n with
  | zero =>
    intro f g cs hn _ _
    have hcs : cs = [] := List.length_eq_zero.mp (Nat.le_zero.mp hn)
    subst hcs
    cases f <;> cases g <;> rfl
  | succ n ih =>
    intro f g cs hn hf hg
    cases cs with
    | nil => cases f <;> cases g <;> rfl
    | cons c rest =>
      simp only [List.length_cons] at hn hf hg
      obtain ⟨f1, rfl⟩ : ∃ f1, f = f1 + 1 := ⟨f - 1, by omega⟩
      obtain ⟨g1, rfl⟩ : ∃ g1, g = g1 + 1 := ⟨g - 1, by omega⟩
      unfold stripOscF
      rcases hm : matchAnyOscAt (c :: rest) with _ | r
      · dsimp only
        rw [ih f1 g1 rest (by omega) (by omega) (by omega)]
      · dsimp only
        have h2 := matchAnyOscAt_shorter hm
        simp only [List.length_cons] at h2
        exact ih f1 g1 r (by omega) (by omega) (by omega)

theorem stripOsc133_marker_append {a : List Char} (m b : List Char)
    (ha : esc ∉ a) (hm : matchAnyOscAt (m ++ b) = some b) (hne : m ≠ []) :
    stripOsc133 (a ++ m ++ b) = a ++ stripOsc133 b := by
  induction a with
  | nil =>
    simp only [List.nil_append]
    rcases hmb : m ++ b with _ | ⟨c, rest⟩
    · exact absurd (List.append_eq_nil.mp hmb).1 hne
    · have hblen : b.length ≤ rest.length := by
        have h2 := congrArg List.length hmb
        simp only [List.length_append, List.length_cons] at h2
        have h3 : 1 ≤ m.length := List.length_pos.mpr hne
        omega
      rw [show stripOsc133 (c :: rest) =
          (match matchAnyOscAt (c :: rest) with
           | some r => stripOscF rest.length r
           | none => c :: stripOscF rest.length rest) from rfl]
      rw [hmb] at hm
      rw [hm]
      exact stripOscF_irrel rest.length rest.length b.length b hblen hblen (le_refl _)
  | cons c a2 ih =>
    have hc : ¬ c = esc := fun h => ha (h ▸ List.mem_cons_self c a2)
    have ha2 : esc ∉ a2 := fun h => ha (List.mem_cons_of_mem _ h)
    show stripOsc133 (c :: (a2 ++ m ++ b)) = c :: (a2 ++ stripOsc133 b)
    rw [show stripOsc133 (c :: (a2 ++ m ++ b)) =
        stripOscF ((a2 ++ m ++ b).length + 1) (c :: (a2 ++ m ++ b)) from rfl]
    rw [show stripOscF ((a2 ++ m ++ b).length + 1) (c :: (a2 ++ m ++ b)) =
        (match matchAnyOscAt (c :: (a2 ++ m ++ b)) with
         | some r => stripOscF (a2 ++ m ++ b).length r
         | none => c :: stripOscF (a2 ++ m ++ b).length (a2 ++ m ++ b)) from rfl]
    rw [matchAnyOscAt_not_esc _ hc]
    exact congrArg (c :: ·) (ih ha2)

/-- C5 — counterexample: a CmdSession (pipe) buffer that contains a
Done marker with exit code 1 but no following Ready marker does not
complete the OSC-mode wait loop, even with the silence condition
satisfied — contradicting "execute completes immediately upon seeing
the marker". -/
theorem claim_C5_counterexample :
    findOscD (mkOscD (some 1)) 0 = some (some 1, 0) ∧
    cmdLoopDecision true ⟨mkOscD (some 1), [], true, true, false⟩ = none := by
  constructor
  · decide
  · decide

/-- C5 — amended: for `PtySession.execute` the Done marker alone ends
the wait immediately (whatever the silence/ceiling flags say) with the
carried exit code, 0 when absent; `CmdSession.execute` in OSC mode
additionally requires a Ready marker at or after the Done match before
it completes; and the OSC 133 stripping pass removes the markers from
the returned output. -/
theorem claim_C5_done_marker (buf se : List Char) (code : Option Int) (i : Nat)
    (s h m : Bool) (hD : findOscD buf 0 = some (code, i)) :
    ptyLoopDecision ⟨buf, se, s, h, m⟩ = some (code.getD 0) ∧
    (hasOscA (buf.drop i) = true →
      cmdLoopDecision true ⟨buf, se, s, h, m⟩ = some (code.getD 0)) ∧
    (∀ a b n, esc ∉ a → stripOsc133 (a ++ mkOscD (some n) ++ b) = a ++ stripOsc133 b) ∧
    (∀ a b, esc ∉ a → stripOsc133 (a ++ mkOscA ++ b) = a ++ stripOsc133 b) := by
  refine ⟨?_, ?_, ?_, ?_⟩
  · unfold ptyLoopDecision
    rw [hD]
  · intro hA
    unfold cmdLoopDecision
    rw [if_pos rfl, hD]
    simp only [hA, if_pos rfl]
    rfl
  · intro a b n ha
    exact stripOsc133_marker_append _ _ ha (matchAnyOscAt_mkOscD (some n) b) (by simp [mkOscD])
  · intro a b ha
    exact stripOsc133_marker_append _ _ ha (matchAnyOscAt_mkOscA b) (by simp [mkOscA])

/-- C5 — witness for the amended theorem: concrete buffer with a Done
marker carrying exit code 1 followed by a Ready marker. -/
theorem claim_C5_witness :
    ptyLoopDecision ⟨mkOscD (some 1) ++ mkOscA, [], false, false, false⟩ = some 1 ∧
    cmdLoopDecision true ⟨mkOscD (some 1) ++ mkOscA, [], false, false, false⟩ = some 1 := by
  have h := claim_C5_done_marker (mkOscD (some 1) ++ mkOscA) [] (some 1) 0
    false false false (by decide)
  exact ⟨h.1, h.2.1 (by decide)⟩

theorem cmdLoopDecision_false_exit {t : WaitTick} {c : Int}
    (h : cmdLoopDecision false t = some c) : c = 0 := by
  unfold cmdLoopDecision at h
  simp only [Bool.false_eq_true, if_false] at h
  split at h
  · cases h
    rfl
  · split at h
    · cases h
      rfl
    · cases h

theorem runWaitLoop_first {dec : WaitTick → Option Int} {ts : List WaitTick}
    {c : Int} {t : WaitTick} (h : runWaitLoop dec ts = some (c, t)) :
    dec t = some c := by
  induction ts with
  | nil => cases h
  | cons t0 ts ih =>
    unfold runWaitLoop at h
    rcases hd : dec t0 with _ | c0 <;> rw [hd] at h
    · exact ih h
    · cases h
      exact hd

/-- C6 — counterexample: on `maxWait` expiry the persistent pipe
session returns the accumulated output with exit code 0, not a
conventional timeout exit code, and the one-shot `bunShell` timeout
result has empty stdout, not the accumulated output. -/
theorem claim_C6_counterexample :
    cmdExecuteModel false [⟨("partial").data, [], false, true, true⟩] =
      some ⟨("partial").data, [], 0⟩ ∧
    (0 : Int) ≠ 124 ∧
    (bunShellTimeoutModel 30000).res.stdout = [] := by
  exact ⟨by decide, by decide, rfl⟩

/-- C6 — amended: whenever the non-OSC persistent wait loop completes
(by silence or by the `maxWait` ceiling) it reports exit code 0 and
returns the accumulated buffers unchanged (the subprocess is left
running); a one-shot subprocess that exceeds its timeout is killed and
its result reports exit code 124 with stdout discarded and a timeout
message on stderr. -/
theorem claim_C6_maxwait_behavior (ticks : List WaitTick) (t : WaitTick) (c : Int)
    (hrun : runWaitLoop (cmdLoopDecision false) ticks = some (c, t)) :
    c = 0 ∧
    cmdExecuteModel false ticks = some ⟨t.stdoutBuf, t.stderrBuf, 0⟩ ∧
    (∀ T, (bunShellTimeoutModel T).res.exitCode = 124 ∧
      (bunShellTimeoutModel T).res.stdout = [] ∧ (bunShellTimeoutModel T).killed = true) := by
  have hc : c = 0 := cmdLoopDecision_false_exit (runWaitLoop_first hrun)
  subst hc
  refine ⟨rfl, ?_, fun T => ⟨rfl, rfl, rfl⟩⟩
  unfold cmdExecuteModel
  rw [hrun]
  rfl

/-- C6 — witness for the amended theorem at a concrete tick list. -/
theorem claim_C6_witness :
    cmdExecuteModel false [⟨("x").data, ("e").data, false, true, true⟩] =
      some ⟨("x").data, ("e").data, 0⟩ :=
  (claim_C6_maxwait_behavior [⟨("x").data, ("e").data, false, true, true⟩]
    ⟨("x").data, ("e").data, false, true, true⟩ 0 (by decide)).2.1


/-! ## matchLines step lemmas -/

theorem mlF_norm_exp (o : Oracle) (f : Nat) (exp act : List (List Char)) (caps : Caps) :
    mlF o f (exp.map normLine) act caps = mlF o f exp act caps := by
  cases f with
  | zero => rfl
  | succ f =>
    unfold mlF
    rw [map_normLine_idem]

theorem mlF_norm_act (o : Oracle) (f : Nat) (exp act : List (List Char)) (caps : Caps) :
    mlF o f exp (act.map normLine) caps = mlF o f exp act caps := by
  cases f with
  | zero => rfl
  | succ f =>
    unfold mlF
    rw [map_normLine_idem]

theorem mlF_cons_wild (o : Oracle) (fuel : Nat) (e : List Char) (rest act : List (List Char))
    (caps : Caps) (hw : isWildLine (normLine e) = true) :
    mlF o (fuel + 1) (e :: rest) act caps =
      if rest.map normLine = [] then (.ok, caps)
      else if firstOkSuffix (fun suf => (mlF o fuel (rest.map normLine) suf caps).1 = .ok)
          (act.map normLine) then (.ok, caps)
      else (.fail .ellipsisNoAlign, caps) := by
  conv_lhs => unfold mlF
  dsimp only [List.map_cons]
  rw [if_pos hw]

theorem mlF_cons_nowild_nilact (o : Oracle) (fuel : Nat) (e : List Char)
    (rest : List (List Char)) (caps : Caps) (hnw : isWildLine (normLine e) = false) :
    mlF o (fuel + 1) (e :: rest) [] caps = (.fail (.missingActual (normLine e)), caps) := by
  conv_lhs => unfold mlF
  dsimp only [List.map_cons, List.map_nil]
  rw [if_neg (by simp [hnw])]

theorem firstOkSuffix_iff (p : List (List Char) → Bool) (l : List (List Char)) :
    firstOkSuffix p l = true ↔ ∃ k, k ≤ l.length ∧ p (l.drop k) = true := by
  induction l with
  | nil =>
    constructor
    · intro h
      exact ⟨0, Nat.le_refl 0, h⟩
    · rintro ⟨k, _, hp⟩
      simpa [List.drop_nil] using hp
  | cons a as ih =>
    simp only [firstOkSuffix, Bool.or_eq_true, ih]
    constructor
    · rintro (h | ⟨k, hk, hp⟩)
      · exact ⟨0, Nat.zero_le _, h⟩
      · refine ⟨k + 1, by simp only [List.length_cons]; omega, by simpa using hp⟩
    · rintro ⟨k, hk, hp⟩
      cases k with
      | zero => exact Or.inl hp
      | succ k =>
        right
        exact ⟨k, by simp only [List.length_cons] at hk; omega, by simpa using hp⟩

/-! ## C2 -/

/-- C2 — confirmed: a line whose trimmed text is exactly `...` or
`[...]` is a multi-line wildcard.  When it is the last expected line the
match succeeds against any remaining actual lines, including none; when
expected lines follow, the whole match from the wildcard on succeeds
exactly when some split `k` (consuming `k` actual lines,
`0 ≤ k ≤ actual.length`) lets the remaining expected lines match the
remaining actual lines — the backtracking loop tries `k = 0, 1, 2, …`
and accepts the first success. -/
theorem claim_C2_wildcard (o : Oracle) (w : List Char) (tail act : List (List Char))
    (caps : Caps) (hw : isWildLine w = true) :
    (tail = [] → (matchLines o (w :: tail) act caps).1 = .ok) ∧
    (tail ≠ [] →
      ((matchLines o (w :: tail) act caps).1 = .ok ↔
        ∃ k, k ≤ act.length ∧ (matchLines o tail (act.drop k) caps).1 = .ok)) := by
  have hw2 : isWildLine (normLine w) = true := (isWildLine_normLine w).trans hw
  constructor
  · intro h0
    subst h0
    show (mlF o ([w].length + 1) [w] act caps).1 = .ok
    rw [mlF_cons_wild o ([w].length) w [] act caps hw2]
    rfl
  · intro hne
    show (mlF o ((w :: tail).length + 1) (w :: tail) act caps).1 = .ok ↔ _
    rw [mlF_cons_wild o ((w :: tail).length) w tail act caps hw2]
    rw [if_neg (by simpa using hne)]
    have hP : ∀ suf, (mlF o ((w :: tail).length) (tail.map normLine) suf caps).1 =
        (matchLines o tail suf caps).1 := by
      intro suf
      show (mlF o (tail.length + 1) (tail.map normLine) suf caps).1 = _
      rw [mlF_norm_exp]
      rfl
    have hdropmap : ∀ k, (act.map normLine).drop k = (act.drop k).map normLine :=
      fun k => (List.map_drop normLine act k).symm
    constructor
    · intro h
      by_cases hfo : firstOkSuffix
          (fun suf => (mlF o ((w :: tail).length) (tail.map normLine) suf caps).1 = .ok)
          (act.map normLine) = true
      case neg =>
        rw [if_neg hfo] at h
        cases h
      case pos =>
        rw [firstOkSuffix_iff] at hfo
        obtain ⟨k, hk, hp⟩ := hfo
        refine ⟨k, by simpa using hk, ?_⟩
        simp only [decide_eq_true_eq] at hp
        rw [hdropmap k, mlF_norm_act, hP (act.drop k)] at hp
        exact hp
    · rintro ⟨k, hk, hp⟩
      have hfo : firstOkSuffix
          (fun suf => (mlF o ((w :: tail).length) (tail.map normLine) suf caps).1 = .ok)
          (act.map normLine) = true := by
        rw [firstOkSuffix_iff]
        refine ⟨k, by simpa using hk, ?_⟩
        simp only [decide_eq_true_eq]
        rw [hdropmap k, mlF_norm_act, hP (act.drop k)]
        exact hp
      rw [if_pos hfo]

/-- C2 — witness: scenario with a wildcard consuming two lines and a
trailing-wildcard case. -/
theorem claim_C2_witness :
    (matchLines noUserRegex [("[...]").data, ("end").data]
      [("x").data, ("y").data, ("end").data] []).1 = .ok :=
  ((claim_C2_wildcard noUserRegex (("[...]").data) [("end").data]
    [("x").data, ("y").data, ("end").data] [] (by decide)).2 (by decide)).mpr
    ⟨2, by decide, by decide⟩

/-! ## C3 -/

/-- C3 — counterexample: the claim says captures bound inside the
branch that ultimately succeeds are committed to the shared capture
table; in the code the probes run on copies and even the successful
branch's bindings are discarded — after a successful match of
`["...", "x\x7b\x7bid:*\x7d\x7d"]` against `["xA"]` the shared table still has
no binding for `id`, although the same line matched alone does bind
`id`. -/
theorem claim_C3_counterexample :
    (matchLines noUserRegex [['.', '.', '.'], 'x' :: phStarTok (("id").data)]
      [['x', 'A']] []).1 = .ok ∧
    (matchLines noUserRegex [['.', '.', '.'], 'x' :: phStarTok (("id").data)]
      [['x', 'A']] []).2 = [] ∧
    (matchLines noUserRegex ['x' :: phStarTok (("id").data)] [['x', 'A']] []).2 =
      [((("id").data), ['A'])] := by
  exact ⟨by decide, by decide, by decide⟩

/-- C3 — amended: each backtracking branch runs on a copy of the
capture table, so a failed branch leaves no mutations in the shared
table — but neither does the successful branch: from the first
multi-line wildcard on, the shared table is returned unchanged whatever
the outcome; only captures of lines matched before the first wildcard
are committed. -/
theorem claim_C3_wildcard_captures (o : Oracle) (w : List Char)
    (tail act : List (List Char)) (caps : Caps) (hw : isWildLine w = true) :
    (matchLines o (w :: tail) act caps).2 = caps ∧
    (matchLines noUserRegex ['x' :: phStarTok (("id").data), ['.', '.', '.']]
      [['x', 'A']] []).2 = [((("id").data), ['A'])] := by
  constructor
  · show (mlF o ((w :: tail).length + 1) (w :: tail) act caps).2 = caps
    rw [mlF_cons_wild o ((w :: tail).length) w tail act caps
      ((isWildLine_normLine w).trans hw)]
    split
    · rfl
    · split <;> rfl
  · decide

/-- C3 — witness for the amended theorem. -/
theorem claim_C3_witness :
    (matchLines noUserRegex [['.', '.', '.']] [['z']] [((("k").data), ("v").data)]).2 =
      [((("k").data), ("v").data)] :=
  (claim_C3_wildcard_captures noUserRegex ['.', '.', '.'] [] [['z']]
    [((("k").data), ("v").data)] (by decide)).1

/-! ## C4 -/

/-- C4 — confirmed: leftover actual lines after the expected lines are
consumed fail the match with the extra-actual-lines diagnostic; a
non-wildcard expected line with no actual line left fails with the
missing-actual-line diagnostic; hence an empty expected stdout matches
exactly when the actual stdout — as normalized by runBlock, which pops
trailing blank lines — is empty. -/
theorem claim_C4_boundaries (o : Oracle) (caps : Caps) (act : List (List Char))
    (e : List Char) (rest : List (List Char)) (raw : List Char) :
    ((matchLines o [] act caps).1 = .ok ↔ act = []) ∧
    (∀ a as, (matchLines o [] (a :: as) caps).1 = .fail (.extraActual (normLine a))) ∧
    (isWildLine e = false →
      (matchLines o (e :: rest) [] caps).1 = .fail (.missingActual (normLine e))) ∧
    ((matchLines o [] (runBlockNormalize raw) caps).1 = .ok ↔ runBlockNormalize raw = []) := by
  have base : ∀ acts : List (List Char), (matchLines o [] acts caps).1 = .ok ↔ acts = [] := by
    intro acts
    cases acts with
    | nil => exact ⟨fun _ => rfl, fun _ => rfl⟩
    | cons a as =>
      constructor
      · intro h
        cases h
      · intro h
        cases h
  refine ⟨base act, ?_, ?_, base (runBlockNormalize raw)⟩
  · intro a as
    rfl
  · intro hnw
    show (mlF o ((e :: rest).length + 1) (e :: rest) [] caps).1 = _
    rw [mlF_cons_nowild_nilact o ((e :: rest).length) e rest caps
      ((isWildLine_normLine e).trans hnw)]

/-- C4 — witness: concrete leftover-line and missing-line failures and
the empty-versus-empty boundary. -/
theorem claim_C4_witness :
    (matchLines noUserRegex [("hello").data] [] []).1 =
      .fail (.missingActual (("hello").data)) ∧
    (matchLines noUserRegex [] (runBlockNormalize (("out\n\n").data)) []).1 ≠ .ok := by
  constructor
  · have h := (claim_C4_boundaries noUserRegex [] [] (("hello").data) [] []).2.2.1 (by decide)
    rw [h]
    decide
  · intro hok
    have h := (claim_C4_boundaries noUserRegex [] [] (("x").data) [] (("out\n\n").data)).2.2.2.mp hok
    revert h
    decide



/-! ## C9 -/

theorem testFileLoop_abort :
    ∀ (bs : List DocBlock) (i : Nat) (counts : List (List Char × Nat))
      (seen : List (List Char)) (acc : List DocBlock) (j : Nat) (tid : List Char)
      (ex : List DocBlock),
      testFileLoop bs i counts seen acc = .aborted j tid ex →
      i ≤ j ∧ j - i < bs.length ∧
      ex = acc ++ (bs.take (j - i)).filter (fun b => !(parseBlock b.body).commands.isEmpty) := by
  intro bs
  induction bs with
  | nil =>
    intro i counts seen acc j tid ex h
    cases h
  | cons b bs ih =>
    intro i counts seen acc j tid ex h
    unfold testFileLoop at h
    rcases hgen : generateTestId b.slug i counts with ⟨tid0, counts2⟩
    rw [hgen] at h
    dsimp only at h
    by_cases hmem : tid0 ∈ seen
    · rw [if_pos hmem] at h
      injection h with h1 h2 h3
      subst h1
      subst h3
      refine ⟨Nat.le_refl i, by simp, ?_⟩
      simp
    · rw [if_neg hmem] at h
      by_cases hcmd : (parseBlock b.body).commands = []
      · rw [if_pos hcmd] at h
        obtain ⟨hij, hlt, hex⟩ := ih (i + 1) counts2 (tid0 :: seen) acc j tid ex h
        have hji : j - i = (j - (i + 1)) + 1 := by omega
        refine ⟨by omega, by simp only [List.length_cons]; omega, ?_⟩
        rw [hji, List.take_succ_cons, List.filter_cons]
        have hpb : (!(parseBlock b.body).commands.isEmpty) = false := by
          simp [List.isEmpty_iff, hcmd]
        rw [hpb]
        simpa using hex
      · rw [if_neg hcmd] at h
        obtain ⟨hij, hlt, hex⟩ := ih (i + 1) counts2 (tid0 :: seen) (acc ++ [b]) j tid ex h
        have hji : j - i = (j - (i + 1)) + 1 := by omega
        refine ⟨by omega, by simp only [List.length_cons]; omega, ?_⟩
        rw [hji, List.take_succ_cons, List.filter_cons]
        have hpb : (!(parseBlock b.body).commands.isEmpty) = true := by
          simp [List.isEmpty_iff, hcmd]
        rw [hpb]
        rw [hex]
        simp

/-- C9 — counterexample: the duplicate-id check runs inside the block
loop, after earlier blocks have already executed: in a document whose
first block (no heading, id `block-1`) runs a command and whose second
block's heading slug is `block-1`, the run aborts at the second block
with the first block already executed — contradicting "aborts before
any block of the document is executed". -/
theorem claim_C9_counterexample :
    testFileRun [⟨none, ("$ echo hi").data⟩, ⟨some (("block-1").data), ("$ echo bye").data⟩] =
      .aborted 1 (("block-1").data) [⟨none, ("$ echo hi").data⟩] ∧
    ([⟨none, ("$ echo hi").data⟩] : List DocBlock) ≠ [] := by
  exact ⟨by decide, by decide⟩

/-- C9 — amended: a duplicate derived test id is a fatal error, but it
is detected when the loop reaches the offending block: the run aborts
before executing that block, while every earlier command-bearing block
of the document has already executed. -/
theorem claim_C9_duplicate_abort (bs : List DocBlock) (j : Nat) (tid : List Char)
    (ex : List DocBlock) (h : testFileRun bs = .aborted j tid ex) :
    j < bs.length ∧
    ex = (bs.take j).filter (fun b => !(parseBlock b.body).commands.isEmpty) := by
  obtain ⟨_, hlt, hex⟩ := testFileLoop_abort bs 0 [] [] [] j tid ex h
  exact ⟨by simpa using hlt, by simpa using hex⟩

/-- C9 — witness for the amended theorem at the concrete two-block
document. -/
theorem claim_C9_witness :
    1 < ([⟨none, ("$ echo hi").data⟩, ⟨some (("block-1").data), ("$ echo bye").data⟩] :
      List DocBlock).length ∧
    ([⟨none, ("$ echo hi").data⟩] : List DocBlock) =
      (([⟨none, ("$ echo hi").data⟩, ⟨some (("block-1").data), ("$ echo bye").data⟩] :
        List DocBlock).take 1).filter (fun b => !(parseBlock b.body).commands.isEmpty) :=
  claim_C9_duplicate_abort
    [⟨none, ("$ echo hi").data⟩, ⟨some (("block-1").data), ("$ echo bye").data⟩]
    1 (("block-1").data) [⟨none, ("$ echo hi").data⟩] (by decide)



/-! ### C8: the exit-code line and the exit default -/


theorem takeWhile_append_of_all (p : Char → Bool) (xs ys : List Char)
    (h : ∀ x ∈ xs, p x = true) :
    (xs ++ ys).takeWhile p = xs ++ ys.takeWhile p := by
  induction xs with
  | nil => rfl
  | cons a t ih =>
    rw [List.cons_append, List.takeWhile_cons, if_pos (h a (by simp)), List.cons_append,
      ih (fun x hx => h x (by simp [hx]))]

theorem dropWhile_append_of_all (p : Char → Bool) (xs ys : List Char)
    (h : ∀ x ∈ xs, p x = true) :
    (xs ++ ys).dropWhile p = ys.dropWhile p := by
  induction xs with
  | nil => rfl
  | cons a t ih =>
    rw [List.cons_append, List.dropWhile_cons, if_pos (h a (by simp)),
      ih (fun x hx => h x (by simp [hx]))]

theorem splitNl_no_nl (l : List Char) (h : '\n' ∉ l) : splitNl l = [l] := by
  induction l with
  | nil => rfl
  | cons c t ih =>
    rw [splitNl_cons_ne c t (by rintro rfl; exact h (by simp)),
      ih (fun hm => h (by simp [hm]))]
    rfl

theorem splitNl_append_nl (l : List Char) (h : '\n' ∉ l) (x : List Char) :
    splitNl (l ++ '\n' :: x) = l :: splitNl x := by
  induction l with
  | nil => simpa using splitNl_nl x
  | cons c t ih =>
    rw [List.cons_append, splitNl_cons_ne c _ (by rintro rfl; exact h (by simp)),
      ih (fun hm => h (by simp [hm]))]
    rfl

theorem splitNl_joinNl (ls : List (List Char)) (hne : ls ≠ [])
    (h : ∀ l ∈ ls, '\n' ∉ l) : splitNl (joinNl ls) = ls := by
  induction ls with
  | nil => exact absurd rfl hne
  | cons l rest ih =>
    cases rest with
    | nil => exact splitNl_no_nl l (h l (by simp))
    | cons l2 rs =>
      rw [show joinNl (l :: l2 :: rs) = l ++ '\n' :: joinNl (l2 :: rs) from rfl,
        splitNl_append_nl l (h l (by simp)),
        ih (by simp) (fun x hx => h x (by simp [hx]))]

theorem exitLineNum_bracket (d : List Char) (hd : d ≠ [])
    (hdd : ∀ x ∈ d, x.isDigit = true) :
    exitLineNum ('[' :: (d ++ [']'])) = some (digitsToNat d) := by
  have ht : (d ++ [']']).takeWhile Char.isDigit = d := by
    rw [takeWhile_append_of_all _ _ _ hdd,
      show List.takeWhile Char.isDigit [']'] = [] from by decide, List.append_nil]
  have hdr : (d ++ [']']).dropWhile Char.isDigit = [']'] := by
    rw [dropWhile_append_of_all _ _ _ hdd]
    decide
  show (if (d ++ [']']).takeWhile Char.isDigit = [] then none
    else match (d ++ [']']).dropWhile Char.isDigit with
      | ']' :: r3 => if r3.all isJsSpace then some (digitsToNat ((d ++ [']']).takeWhile Char.isDigit)) else none
      | _ => none) = some (digitsToNat d)
  rw [ht, hdr, if_neg hd]
  rfl

theorem parseBlockGo_plain (os : List (List Char))
    (hos : ∀ l ∈ os, cmdPre.isPrefixOf l = false ∧ contPre.isPrefixOf l = false ∧
      errPre.isPrefixOf l = false ∧ exitLineNum l = none) :
    ∀ (tail : List (List Char)) (c : List Char) (eo ee : List (List Char))
      (ex : Option Nat) (steps : List Step),
      parseBlockGo (os ++ tail) (some c) eo ee ex steps =
        parseBlockGo tail (some c) (eo ++ os) ee ex steps := by
  induction os with
  | nil => intro tail c eo ee ex steps; simp
  | cons l os ih =>
    intro tail c eo ee ex steps
    obtain ⟨h1, h2, h3, h4⟩ := hos l (by simp)
    have hrest : ∀ x ∈ os, cmdPre.isPrefixOf x = false ∧ contPre.isPrefixOf x = false ∧
        errPre.isPrefixOf x = false ∧ exitLineNum x = none :=
      fun x hx => hos x (by simp [hx])
    show parseBlockGo (l :: (os ++ tail)) (some c) eo ee ex steps = _
    conv_lhs => rw [parseBlockGo]
    rw [if_neg (by rw [h1]; exact Bool.false_ne_true), if_neg (by rw [h2]; exact Bool.false_ne_true),
      if_neg (by rw [h3]; exact Bool.false_ne_true), h4]
    rw [ih hrest tail c (eo ++ [l]) ee ex steps, List.append_assoc]
    rfl

theorem cmdPre_isPrefixOf_cmd (c : List Char) :
    cmdPre.isPrefixOf ('$' :: ' ' :: c) = true := by
  simp [cmdPre, List.isPrefixOf]

theorem notPre_bracket (d : List Char) :
    cmdPre.isPrefixOf ('[' :: (d ++ [']'])) = false ∧
    contPre.isPrefixOf ('[' :: (d ++ [']'])) = false ∧
    errPre.isPrefixOf ('[' :: (d ++ [']'])) = false := by
  refine ⟨?_, ?_, ?_⟩ <;> simp [cmdPre, contPre, errPre, List.isPrefixOf]

/-- C8 counterexample: a block whose step has no `[N]` line does not get
expected exit code 0 in `parseBlock` (the field stays unset), and with an
`exit=3` info option the effective wanted exit code resolves to 3, not 0. -/
theorem claim_C8_counterexample :
    (parseBlock ("$ true").data).expect.exit = none ∧
    resolveWantExit (parseBlock ("$ true").data).expect.exit
      (parseInfo ("exit=3").data).exit = .fin 3 ∧
    (JsNum.fin 3) ≠ (JsNum.fin 0) := by decide

/-- C8: a line of the exact form `[N]` (N a nonempty digit string) sets the
expected exit code of the step for the preceding command and is not treated
as an expected stdout line; a step with no such line leaves the expected
exit code unset, and the effective wanted exit code then defaults to the
block-level `exit=` option when present and to 0 otherwise
(`expect.exit ?? opts.exit ?? 0`). -/
theorem claim_C8_exit_line (c d : List Char) (os : List (List Char))
    (hc : '\n' ∉ c)
    (hos : ∀ l ∈ os, cmdPre.isPrefixOf l = false ∧ contPre.isPrefixOf l = false ∧
      errPre.isPrefixOf l = false ∧ exitLineNum l = none ∧ '\n' ∉ l)
    (hd : d ≠ []) (hdd : ∀ x ∈ d, x.isDigit = true) :
    parseBlock (joinNl (('$' :: ' ' :: c) :: (os ++ ['[' :: (d ++ [']'])]))) =
      { commands := [c]
        expect := ⟨dropTrailingBlankLines os, [], some (digitsToNat d)⟩
        steps := [⟨c, ⟨dropTrailingBlankLines os, [], some (digitsToNat d)⟩⟩] } ∧
    (∀ optExit : Option JsNum,
      resolveWantExit (parseBlock (joinNl [('$' :: ' ' :: c)])).expect.exit optExit =
        optExit.getD (.fin 0)) := by
  have hcnl : '\n' ∉ ('$' :: ' ' :: c) := by
    simp only [List.mem_cons]
    rintro (h | h | h)
    · exact absurd h (by decide)
    · exact absurd h (by decide)
    · exact hc h
  have hnl : ∀ l ∈ ('$' :: ' ' :: c) :: (os ++ ['[' :: (d ++ [']'])]), '\n' ∉ l := by
    intro l hl
    rcases List.mem_cons.mp hl with rfl | hl2
    · exact hcnl
    rcases List.mem_append.mp hl2 with hin | hin
    · exact (hos l hin).2.2.2.2
    have hleq : l = '[' :: (d ++ [']']) := by simpa using hin
    subst hleq
    simp only [List.mem_cons, List.mem_append]
    rintro (h | h | h)
    · exact absurd h (by decide)
    · exact absurd (hdd _ h) (by decide)
    · exact absurd h (by decide)
  have hos4 : ∀ x ∈ os, cmdPre.isPrefixOf x = false ∧ contPre.isPrefixOf x = false ∧
      errPre.isPrefixOf x = false ∧ exitLineNum x = none :=
    fun x hx => ⟨(hos x hx).1, (hos x hx).2.1, (hos x hx).2.2.1, (hos x hx).2.2.2.1⟩
  have hsteps : parseBlockGo
      (splitNl (joinNl (('$' :: ' ' :: c) :: (os ++ ['[' :: (d ++ [']'])])))) none [] [] none [] =
      [⟨c, ⟨dropTrailingBlankLines os, [], some (digitsToNat d)⟩⟩] := by
    rw [splitNl_joinNl _ (by simp) hnl]
    conv_lhs => rw [parseBlockGo]
    rw [if_pos (cmdPre_isPrefixOf_cmd c)]
    show parseBlockGo (os ++ ['[' :: (d ++ [']'])]) (some c) [] [] none [] = _
    rw [parseBlockGo_plain os hos4 _ c [] [] none [], List.nil_append]
    conv_lhs => rw [parseBlockGo]
    rw [if_neg (by rw [(notPre_bracket d).1]; exact Bool.false_ne_true),
      if_neg (by rw [(notPre_bracket d).2.1]; exact Bool.false_ne_true),
      if_neg (by rw [(notPre_bracket d).2.2]; exact Bool.false_ne_true),
      exitLineNum_bracket d hd hdd]
    show parseBlockGo [] (some c) os [] (some (digitsToNat d)) [] = _
    rfl
  constructor
  · simp only [parseBlock]
    rw [hsteps]
    simp [List.flatMap]
  · intro optExit
    have hsteps2 : parseBlockGo (splitNl (joinNl [('$' :: ' ' :: c)])) none [] [] none [] =
        [⟨c, ⟨[], [], none⟩⟩] := by
      show parseBlockGo (splitNl ('$' :: ' ' :: c)) none [] [] none [] = _
      rw [splitNl_no_nl _ hcnl]
      conv_lhs => rw [parseBlockGo]
      rw [if_pos (cmdPre_isPrefixOf_cmd c)]
      show parseBlockGo [] (some c) [] [] none [] = _
      rfl
    have hnone : (parseBlock (joinNl [('$' :: ' ' :: c)])).expect.exit = none := by
      simp only [parseBlock]
      rw [hsteps2]
      rfl
    rw [hnone]
    rfl

/-- C8 witness: `claim_C8_exit_line` at a concrete block. -/
theorem claim_C8_witness :
    (parseBlock (joinNl (('$' :: ' ' :: ("true").data) ::
        ([("ok").data] ++ ['[' :: ((['2'] : List Char) ++ [']'])]))) =
      { commands := [("true").data]
        expect := ⟨[("ok").data], [], some 2⟩
        steps := [⟨("true").data, ⟨[("ok").data], [], some 2⟩⟩] }) ∧
    resolveWantExit (parseBlock (joinNl [('$' :: ' ' :: ("true").data)])).expect.exit
      (some (JsNum.fin 7)) = JsNum.fin 7 := by
  have h := claim_C8_exit_line ("true").data ['2'] [("ok").data]
    (by decide) (by decide) (by decide) (by decide)
  refine ⟨?_, ?_⟩
  · rw [h.1]; rfl
  · rw [h.2 (some (JsNum.fin 7))]; rfl



/-! ### C1: placeholder capture/reuse semantics -/


theorem fragsMatch_lits (o : Oracle) (p : List Char) (fs : List Frag) :
    ∀ as : List Char, fragsMatch o (p.map .lit ++ fs) as =
      if p.isPrefixOf as then fragsMatch o fs (as.drop p.length) else none := by
  induction p with
  | nil => intro as; simp [List.isPrefixOf]
  | cons c t ih =>
    intro as
    cases as with
    | nil =>
      rw [show (List.isPrefixOf (c :: t) ([] : List Char)) = false from rfl]
      simp [fragsMatch]
    | cons a as2 =>
      rw [List.map_cons, List.cons_append,
        show fragsMatch o (.lit c :: (t.map .lit ++ fs)) (a :: as2) =
          (if a = c then fragsMatch o (t.map .lit ++ fs) as2 else none) from rfl,
        show List.isPrefixOf (c :: t) (a :: as2) = ((c == a) && t.isPrefixOf as2) from rfl]
      by_cases hac : a = c
      · subst hac
        rw [if_pos rfl, ih as2]
        simp
      · rw [if_neg hac, show (c == a) = false from by
          rw [beq_eq_false_iff_ne]; exact fun h => hac h.symm]
        simp

theorem fragsMatch_lits_nil (o : Oracle) (p : List Char) (as : List Char) :
    fragsMatch o (p.map .lit) as = if as = p then some [] else none := by
  rw [← List.append_nil (p.map Frag.lit), fragsMatch_lits]
  by_cases h : as = p
  · subst h
    rw [if_pos (List.isPrefixOf_iff_prefix.mpr (List.prefix_rfl)), if_pos rfl]
    simp [fragsMatch]
  · rw [if_neg h]
    by_cases hp : p.isPrefixOf as
    · rw [if_pos hp]
      obtain ⟨t, rfl⟩ := List.isPrefixOf_iff_prefix.mp hp
      rw [List.drop_left]
      have ht : t ≠ [] := by rintro rfl; exact h (by simp)
      simp [fragsMatch, ht]
    · rw [if_neg hp]

theorem tryLens_unique (cont : List Char → Option Groups) (as : List Char)
    (j0 : Nat) (gs0 : Groups) (hj0 : 1 ≤ j0) (hcont : cont (as.drop j0) = some gs0) :
    ∀ n, j0 ≤ n →
      (∀ k, 1 ≤ k → k ≤ n → (cont (as.drop k)).isSome → k = j0) →
      tryLens cont as n = some (as.take j0, gs0) := by
  intro n
  induction n with
  | zero => intro h; omega
  | succ k ih =>
    intro hle huniq
    rw [show tryLens cont as (k + 1) =
      (match cont (as.drop (k + 1)) with
       | some gs => some (as.take (k + 1), gs)
       | none => tryLens cont as k) from rfl]
    rcases hc : cont (as.drop (k + 1)) with _ | gs
    · have hne : j0 ≠ k + 1 := by
        rintro rfl
        rw [hcont] at hc
        cases hc
      exact ih (by omega) (fun j h1 h2 h3 => huniq j h1 (by omega) h3)
    · have : k + 1 = j0 := huniq (k + 1) (by omega) (by omega) (by rw [hc]; rfl)
      subst this
      rw [hcont] at hc
      cases hc
      rfl

/-- Greedy `.+` capture against `mid ++ post` where `post` is forced by
trailing literals: the unique decomposition pins the consumed prefix. -/
theorem capAny_match (o : Oracle) (name : List Char) (mid post : List Char)
    (hmid : mid ≠ [])
    (huniq : ∀ k, k ≤ (mid ++ post).length → (mid ++ post).drop k = post → k = mid.length) :
    fragsMatch o (.capAny name :: post.map .lit) (mid ++ post) = some [(name, mid)] := by
  rw [show fragsMatch o (.capAny name :: post.map .lit) (mid ++ post) =
    (tryLens (fragsMatch o (post.map .lit)) (mid ++ post) (mid ++ post).length).map
      (fun vg => (name, vg.1) :: vg.2) from rfl]
  have h1 : 1 ≤ mid.length := by
    cases mid with
    | nil => exact absurd rfl hmid
    | cons c t => simp
  rw [tryLens_unique (fragsMatch o (post.map .lit)) (mid ++ post) mid.length []
    h1 (by rw [List.drop_left, fragsMatch_lits_nil, if_pos rfl])
    (mid ++ post).length (by simp)
    (fun k hk1 hk2 hs => by
      rw [fragsMatch_lits_nil] at hs
      by_cases hd : (mid ++ post).drop k = post
      · exact huniq k hk2 hd
      · rw [if_neg hd] at hs
        cases hs)]
  rw [List.take_left]
  rfl

theorem matchPhAt_none (c : Char) (rest : List Char) (h : c ≠ lbrace) :
    matchPhAt (c :: rest) = none := by
  cases rest with
  | nil => rfl
  | cons b2 r2 =>
    cases r2 with
    | nil => rfl
    | cons c3 r3 =>
      simp only [matchPhAt]
      rw [if_neg]
      rintro ⟨h1, _⟩
      exact h h1

theorem matchPhAt_step (b1 b2 c : Char) (rest : List Char) :
    matchPhAt (b1 :: b2 :: c :: rest) =
      (if b1 = lbrace ∧ b2 = lbrace ∧ isNameStart c = true then
        let nm := c :: rest.takeWhile isNameChar
        let r1 := rest.dropWhile isNameChar
        match r1 with
        | ':' :: '*' :: c1 :: c2 :: r2 =>
          if c1 = rbrace ∧ c2 = rbrace then some (nm, some ['*'], r2)
          else none
        | ':' :: '/' :: r2 =>
          match slashBody r2 with
          | some (body, r3) => some (nm, some ('/' :: body ++ ['/']), r3)
          | none => none
        | c1 :: c2 :: r2 =>
          if c1 = rbrace ∧ c2 = rbrace then some (nm, none, r2) else none
        | _ => none
      else none) := rfl

theorem matchPhAt_phTok (c0 : Char) (ntail : List Char) (post : List Char)
    (h0 : isNameStart c0 = true) (ht : ∀ x ∈ ntail, isNameChar x = true) :
    matchPhAt (phTok (c0 :: ntail) ++ post) = some (c0 :: ntail, none, post) := by
  have e1 : phTok (c0 :: ntail) ++ post =
      lbrace :: lbrace :: c0 :: (ntail ++ rbrace :: rbrace :: post) := by
    simp [phTok]
  rw [e1]
  have htake : (ntail ++ rbrace :: rbrace :: post).takeWhile isNameChar = ntail := by
    rw [takeWhile_append_of_all _ _ _ ht, List.takeWhile_cons, if_neg (by decide),
      List.append_nil]
  have hdrop : (ntail ++ rbrace :: rbrace :: post).dropWhile isNameChar =
      rbrace :: rbrace :: post := by
    rw [dropWhile_append_of_all _ _ _ ht, List.dropWhile_cons, if_neg (by decide)]
  rw [matchPhAt_step, if_pos ⟨rfl, rfl, h0⟩]
  rw [hdrop]
  dsimp only
  rw [htake]
  rfl

theorem matchPhAt_phStarTok (c0 : Char) (ntail : List Char) (post : List Char)
    (h0 : isNameStart c0 = true) (ht : ∀ x ∈ ntail, isNameChar x = true) :
    matchPhAt (phStarTok (c0 :: ntail) ++ post) = some (c0 :: ntail, some ['*'], post) := by
  have e1 : phStarTok (c0 :: ntail) ++ post =
      lbrace :: lbrace :: c0 :: (ntail ++ ':' :: '*' :: rbrace :: rbrace :: post) := by
    simp [phStarTok]
  rw [e1]
  have htake : (ntail ++ ':' :: '*' :: rbrace :: rbrace :: post).takeWhile isNameChar = ntail := by
    rw [takeWhile_append_of_all _ _ _ ht, List.takeWhile_cons, if_neg (by decide),
      List.append_nil]
  have hdrop : (ntail ++ ':' :: '*' :: rbrace :: rbrace :: post).dropWhile isNameChar =
      ':' :: '*' :: rbrace :: rbrace :: post := by
    rw [dropWhile_append_of_all _ _ _ ht, List.dropWhile_cons, if_neg (by decide)]
  rw [matchPhAt_step, if_pos ⟨rfl, rfl, h0⟩]
  rw [hdrop]
  dsimp only
  rw [htake]
  rfl

theorem scanPhF_succ (f : Nat) (c : Char) (rest : List Char) :
    scanPhF (f + 1) (c :: rest) =
      match matchPhAt (c :: rest) with
      | some (nm, sp, r) => .ph nm sp :: scanPhF f r
      | none => .chr c :: scanPhF f rest := rfl

theorem scanPhF_all_chr (post : List Char) (hpost : lbrace ∉ post) :
    ∀ f, post.length ≤ f → scanPhF f post = post.map .chr := by
  induction post with
  | nil => intro f _; cases f <;> rfl
  | cons c p ih =>
    intro f hf
    cases f with
    | zero => simp at hf
    | succ f2 =>
      rw [scanPhF_succ, matchPhAt_none c p (fun h => hpost (by simp [h]))]
      rw [ih (fun h => hpost (by simp [h])) f2 (by simp at hf; omega)]
      rfl

theorem scanPhF_no_ph_prefix (pre : List Char) (hpre : lbrace ∉ pre) :
    ∀ (rest : List Char) (f : Nat),
      scanPhF (pre.length + f) (pre ++ rest) = pre.map .chr ++ scanPhF f rest := by
  induction pre with
  | nil => intro rest f; simp
  | cons c p ih =>
    intro rest f
    have hl : (c :: p).length + f = (p.length + f) + 1 := by
      simp [Nat.add_right_comm]
    rw [hl, List.cons_append, scanPhF_succ,
      matchPhAt_none c (p ++ rest) (fun h => hpre (by simp [h]))]
    rw [ih (fun h => hpre (by simp [h])) rest f]
    rfl

theorem scanPh_pre_tok (pre tok name post : List Char) (sp : Option (List Char))
    (hpre : lbrace ∉ pre) (hpost : lbrace ∉ post)
    (hm : matchPhAt (tok ++ post) = some (name, sp, post)) (htok : tok ≠ []) :
    scanPh (pre ++ tok ++ post) = pre.map .chr ++ .ph name sp :: post.map .chr := by
  obtain ⟨c, t, rfl⟩ : ∃ c t, tok = c :: t := by
    cases tok with
    | nil => exact absurd rfl htok
    | cons c t => exact ⟨c, t, rfl⟩
  unfold scanPh
  have hlen : (pre ++ (c :: t) ++ post).length = pre.length + ((c :: t) ++ post).length := by
    simp
  rw [hlen, List.append_assoc, scanPhF_no_ph_prefix pre hpre]
  rw [show ((c :: t) ++ post).length = (t.length + post.length) + 1 from by simp; try omega]
  have hm2 : matchPhAt (c :: (t ++ post)) = some (name, sp, post) := by
    rw [List.cons_append] at hm; exact hm
  rw [List.cons_append, scanPhF_succ, hm2]
  dsimp only
  rw [scanPhF_all_chr post hpost _ (by omega)]

theorem wildScan_cons (i : Item) (L : List Item)
    (h3 : (i :: L).take 3 ≠ [.chr '.', .chr '.', .chr '.'])
    (h5 : (i :: L).take 5 ≠ [.chr '[', .chr '.', .chr '.', .chr '.', .chr ']']) :
    wildScan (i :: L) = i :: wildScan L := by
  rw [wildScan.eq_def]
  split
  · next rest heq =>
    exact absurd (by rw [heq]; rfl) h3
  · next rest heq =>
    exact absurd (by rw [heq]; rfl) h5
  · next i2 rest heq =>
    injection heq with h1 h2
    rw [← h1, ← h2]
  · next heq => cases heq

theorem wildScan_ph (nm : List Char) (sp : Option (List Char)) (L : List Item) :
    wildScan (.ph nm sp :: L) = .ph nm sp :: wildScan L := by
  refine wildScan_cons _ _ ?_ ?_ <;> cases L <;> simp

theorem wildScan_all_chr (p : List Char) (hp : '.' ∉ p) :
    ∀ L : List Item,
      (∀ x, L.head? = some (.chr x) → x ≠ '.') →
      wildScan (p.map .chr ++ L) = p.map .chr ++ wildScan L := by
  induction p with
  | nil => intro L _; rfl
  | cons c t ih =>
    intro L hL
    have hc : c ≠ '.' := fun h => hp (by simp [h])
    have ht : '.' ∉ t := fun h => hp (by simp [h])
    have hh3 : (Item.chr c :: (List.map Item.chr t ++ L)).take 3 ≠
        [Item.chr '.', Item.chr '.', Item.chr '.'] := by
      cases t with
      | nil =>
        cases hLc : L with
        | nil => simp
        | cons x xs =>
          cases x with
          | chr xc =>
            have hxc := hL xc (by rw [hLc]; rfl)
            simp [hc, hxc]
          | ph n2 s2 => simp [hc]
          | wild => simp [hc]
      | cons c2 t2 =>
        have h2 : c2 ≠ '.' := fun h => ht (by simp [h])
        simp [hc, h2]
    have hh5 : (Item.chr c :: (List.map Item.chr t ++ L)).take 5 ≠
        [Item.chr '[', Item.chr '.', Item.chr '.', Item.chr '.', Item.chr ']'] := by
      cases t with
      | nil =>
        cases hLc : L with
        | nil => simp
        | cons x xs =>
          cases x with
          | chr xc =>
            have hxc := hL xc (by rw [hLc]; rfl)
            simp [hc, hxc]
          | ph n2 s2 => simp [hc]
          | wild => simp [hc]
      | cons c2 t2 =>
        have h2 : c2 ≠ '.' := fun h => ht (by simp [h])
        simp [hc, h2]
    rw [List.map_cons, List.cons_append, wildScan_cons _ _ hh3 hh5, ih ht L hL,
      List.cons_append]

theorem compileItems_chr (caps : Caps) (c : Char) (L : List Item) :
    compileItems caps (.chr c :: L) =
      (.lit c :: (compileItems caps L).1, (compileItems caps L).2) := by
  rcases hL : compileItems caps L with ⟨fs, ks⟩
  simp only [compileItems, hL]

theorem compileItems_ph (caps : Caps) (nm : List Char) (sp : Option (List Char)) (L : List Item) :
    compileItems caps (.ph nm sp :: L) =
      ((phFrag caps nm sp).1 :: (compileItems caps L).1,
        if (phFrag caps nm sp).2 then nm :: (compileItems caps L).2
        else (compileItems caps L).2) := by
  rcases hL : compileItems caps L with ⟨fs, ks⟩
  rcases hf : phFrag caps nm sp with ⟨frag, cap⟩
  simp only [compileItems, hL, hf]

theorem compileItems_chrs (caps : Caps) (p : List Char) (L : List Item) :
    compileItems caps (p.map .chr ++ L) =
      (p.map .lit ++ (compileItems caps L).1, (compileItems caps L).2) := by
  induction p with
  | nil => simp
  | cons c t ih =>
    rw [List.map_cons, List.cons_append, compileItems_chr, ih]
    simp

theorem compileItems_chrs_nil (caps : Caps) (p : List Char) :
    compileItems caps (p.map .chr) = (p.map .lit, []) := by
  rw [← List.append_nil (p.map Item.chr), compileItems_chrs]
  simp [compileItems]

theorem wildScan_chrs_nil (p : List Char) (hp : '.' ∉ p) :
    wildScan (p.map .chr) = p.map .chr := by
  have h := wildScan_all_chr p hp [] (fun x hx => absurd hx (by simp))
  rw [List.append_nil, show wildScan ([] : List Item) = [] from rfl, List.append_nil] at h
  exact h

theorem phFrag_bound (caps : Caps) (name prev : List Char)
    (h : capsGet caps name = some prev) :
    phFrag caps name none = (.boundLit prev, false) := by
  simp [phFrag, h]

theorem phFrag_unbound (caps : Caps) (name : List Char)
    (h : capsGet caps name = none) :
    phFrag caps name none = (.capAny name, true) := by
  simp [phFrag, h]

theorem phFrag_star (caps : Caps) (name : List Char) :
    phFrag caps name (some ['*']) = (.capAny name, true) := rfl

theorem compileExpected_split (caps : Caps) (pre tok name post : List Char)
    (sp : Option (List Char)) (hpre : cleanLit pre) (hpost : cleanLit post)
    (hm : matchPhAt (tok ++ post) = some (name, sp, post)) (htok : tok ≠ [])
    (hnr : ¬((pre ++ tok ++ post).head? = some '/' ∧
      (pre ++ tok ++ post).getLast? = some '/')) :
    compileExpectedLineToRegex (pre ++ tok ++ post) caps =
      (.frags (pre.map .lit ++ (phFrag caps name sp).1 :: post.map .lit),
       if (phFrag caps name sp).2 then [name] else []) := by
  unfold compileExpectedLineToRegex
  rw [if_neg (fun hh => hnr ⟨hh.2.1, hh.2.2⟩)]
  rw [scanPh_pre_tok pre tok name post sp hpre.1 hpost.1 hm htok]
  rw [wildScan_all_chr pre hpre.2.1 _ (fun x hx => absurd hx (by simp))]
  rw [wildScan_ph, wildScan_chrs_nil post hpost.2.1]
  rw [compileItems_chrs]
  dsimp only
  rw [compileItems_ph]
  dsimp only
  rw [compileItems_chrs_nil]

theorem fragsMatch_boundLit (o : Oracle) (s : List Char) (fs : List Frag) (as : List Char) :
    fragsMatch o (.boundLit s :: fs) as =
      if s.isPrefixOf as then fragsMatch o fs (as.drop s.length) else none := rfl

theorem tryLens_none (cont : List Char → Option Groups) (as : List Char) :
    ∀ n, (∀ k, 1 ≤ k → k ≤ n → cont (as.drop k) = none) → tryLens cont as n = none := by
  intro n
  induction n with
  | zero => intro _; rfl
  | succ k ih =>
    intro h
    rw [show tryLens cont as (k + 1) =
      (match cont (as.drop (k + 1)) with
       | some gs => some (as.take (k + 1), gs)
       | none => tryLens cont as k) from rfl]
    rw [h (k + 1) (by omega) (by omega)]
    exact ih (fun j h1 h2 => h j h1 (by omega))

theorem uniq_drop (mid post : List Char)
    (huniq : ∀ m2, m2 ++ post = mid ++ post → m2 = mid) :
    ∀ k, k ≤ (mid ++ post).length → (mid ++ post).drop k = post → k = mid.length := by
  intro k hk hd
  have hsplit : (mid ++ post).take k ++ post = mid ++ post := by
    conv_rhs => rw [← List.take_append_drop k (mid ++ post)]
    rw [hd]
  have he := huniq _ hsplit
  have hlen : ((mid ++ post).take k).length = k := by
    rw [List.length_take]
    omega
  rw [he] at hlen
  omega

theorem mlF_cons_nowild (o : Oracle) (fuel : Nat) (e a : List Char)
    (rest as : List (List Char)) (caps : Caps) (hnw : isWildLine (normLine e) = false) :
    mlF o (fuel + 1) (e :: rest) (a :: as) caps =
      (match applyCompiled o (compileExpectedLineToRegex (normLine e) caps).1 (normLine a) with
       | none => (.fail (.lineMismatch (normLine e) (normLine a)), caps)
       | some gs =>
         match applyKeys (compileExpectedLineToRegex (normLine e) caps).2 gs caps with
         | (caps2, some d) => (.fail d, caps2)
         | (caps2, none) => mlF o fuel (rest.map normLine) (as.map normLine) caps2) := by
  conv_lhs => unfold mlF
  dsimp only [List.map_cons]
  rw [if_neg (by simp [hnw])]

theorem matchLines_single (o : Oracle) (e a : List Char) (caps : Caps) (gs : Groups)
    (hne : normLine e = e) (hna : normLine a = a) (hw : isWildLine e = false)
    (happ : applyCompiled o (compileExpectedLineToRegex e caps).1 a = some gs) :
    matchLines o [e] [a] caps =
      (match applyKeys (compileExpectedLineToRegex e caps).2 gs caps with
       | (caps2, some d) => (.fail d, caps2)
       | (caps2, none) => (.ok, caps2)) := by
  show mlF o (1 + 1) [e] [a] caps = _
  rw [mlF_cons_nowild o 1 e a [] [] caps (by rw [hne]; exact hw)]
  rw [hne, hna, happ]
  have harm : ∀ caps2 : Caps, mlF o 1 ([] : List (List Char)) [] caps2 = (.ok, caps2) :=
    fun _ => rfl
  simp only [List.map_nil, harm]

theorem applyKeys_step (k : List Char) (ks : List (List Char)) (gs : Groups) (caps : Caps) :
    applyKeys (k :: ks) gs caps =
      (match capsGet caps k with
       | none => applyKeys ks gs (capsSet caps k ((gs.lookup k).getD []))
       | some prev =>
         if prev = (gs.lookup k).getD [] then applyKeys ks gs caps
         else (caps, some (.captureMismatch k prev ((gs.lookup k).getD [])))) := rfl

theorem lookup_single (k v : List Char) :
    ((([(k, v)] : Groups).lookup k).getD []) = v := by
  simp [List.lookup]

theorem applyKeys_single_new (k v : List Char) (caps : Caps) (h : capsGet caps k = none) :
    applyKeys [k] [(k, v)] caps = (capsSet caps k v, none) := by
  rw [applyKeys_step, h]
  rw [lookup_single]
  rfl

theorem applyKeys_single_ne (k v prev : List Char) (caps : Caps)
    (h : capsGet caps k = some prev) (hne : prev ≠ v) :
    applyKeys [k] [(k, v)] caps = (caps, some (.captureMismatch k prev v)) := by
  rw [applyKeys_step, h]
  rw [lookup_single]
  dsimp only
  rw [if_neg hne]

theorem boundLit_line_iff (o : Oracle) (pre prev post : List Char) (a : List Char) :
    fragsMatch o (pre.map .lit ++ .boundLit prev :: post.map .lit) a = some [] ↔
      a = pre ++ prev ++ post := by
  rw [fragsMatch_lits]
  constructor
  · intro h
    by_cases hp : pre.isPrefixOf a
    · rw [if_pos hp] at h
      obtain ⟨t, rfl⟩ := List.isPrefixOf_iff_prefix.mp hp
      rw [List.drop_left, fragsMatch_boundLit] at h
      by_cases hb : prev.isPrefixOf t
      · rw [if_pos hb] at h
        obtain ⟨u, rfl⟩ := List.isPrefixOf_iff_prefix.mp hb
        rw [List.drop_left, fragsMatch_lits_nil] at h
        by_cases hu : u = post
        · subst hu
          rw [List.append_assoc]
        · rw [if_neg hu] at h
          cases h
      · rw [if_neg hb] at h
        cases h
    · rw [if_neg hp] at h
      cases h
  · rintro rfl
    rw [List.append_assoc, if_pos (List.isPrefixOf_iff_prefix.mpr (List.prefix_append _ _)),
      List.drop_left, fragsMatch_boundLit,
      if_pos (List.isPrefixOf_iff_prefix.mpr (List.prefix_append _ _)),
      List.drop_left, fragsMatch_lits_nil, if_pos rfl]

theorem capAny_line (o : Oracle) (name pre mid post : List Char) (hmid : mid ≠ [])
    (huniq : ∀ m2, m2 ++ post = mid ++ post → m2 = mid) :
    fragsMatch o (pre.map .lit ++ .capAny name :: post.map .lit) (pre ++ mid ++ post) =
      some [(name, mid)] := by
  rw [List.append_assoc, fragsMatch_lits,
    if_pos (List.isPrefixOf_iff_prefix.mpr (List.prefix_append _ _)), List.drop_left]
  exact capAny_match o name mid post hmid (uniq_drop mid post huniq)

theorem capAny_line_empty (o : Oracle) (name pre post : List Char) :
    fragsMatch o (pre.map .lit ++ .capAny name :: post.map .lit) (pre ++ post) = none := by
  rw [fragsMatch_lits, if_pos (List.isPrefixOf_iff_prefix.mpr (List.prefix_append _ _)),
    List.drop_left]
  rw [show fragsMatch o (.capAny name :: post.map .lit) post =
    (tryLens (fragsMatch o (post.map .lit)) post post.length).map
      (fun vg => (name, vg.1) :: vg.2) from rfl]
  rw [tryLens_none _ _ post.length (fun k h1 h2 => by
    rw [fragsMatch_lits_nil, if_neg (fun hd => by
      have hlen := congrArg List.length hd
      rw [List.length_drop] at hlen
      omega)])]
  rfl

theorem compileExpected_bound (caps : Caps) (pre name post prev : List Char)
    (hpre : cleanLit pre) (hpost : cleanLit post)
    (hm : matchPhAt (phTok name ++ post) = some (name, none, post))
    (hnr : ¬((pre ++ phTok name ++ post).head? = some '/' ∧
      (pre ++ phTok name ++ post).getLast? = some '/'))
    (hb : capsGet caps name = some prev) :
    compileExpectedLineToRegex (pre ++ phTok name ++ post) caps =
      (.frags (pre.map .lit ++ .boundLit prev :: post.map .lit), []) := by
  rw [compileExpected_split caps pre (phTok name) name post none hpre hpost hm
    (by simp [phTok]) hnr]
  rw [phFrag_bound caps name prev hb]
  rfl

theorem compileExpected_unbound (caps : Caps) (pre name post : List Char)
    (hpre : cleanLit pre) (hpost : cleanLit post)
    (hm : matchPhAt (phTok name ++ post) = some (name, none, post))
    (hnr : ¬((pre ++ phTok name ++ post).head? = some '/' ∧
      (pre ++ phTok name ++ post).getLast? = some '/'))
    (hb : capsGet caps name = none) :
    compileExpectedLineToRegex (pre ++ phTok name ++ post) caps =
      (.frags (pre.map .lit ++ .capAny name :: post.map .lit), [name]) := by
  rw [compileExpected_split caps pre (phTok name) name post none hpre hpost hm
    (by simp [phTok]) hnr]
  rw [phFrag_unbound caps name hb]
  rfl

theorem compileExpected_star (caps : Caps) (pre name post : List Char)
    (hpre : cleanLit pre) (hpost : cleanLit post)
    (hm : matchPhAt (phStarTok name ++ post) = some (name, some ['*'], post))
    (hnr : ¬((pre ++ phStarTok name ++ post).head? = some '/' ∧
      (pre ++ phStarTok name ++ post).getLast? = some '/')) :
    compileExpectedLineToRegex (pre ++ phStarTok name ++ post) caps =
      (.frags (pre.map .lit ++ .capAny name :: post.map .lit), [name]) := by
  rw [compileExpected_split caps pre (phStarTok name) name post (some ['*']) hpre hpost hm
    (by simp [phStarTok]) hnr]
  rw [phFrag_star]
  rfl

/-- C1: semantics of `\x7b\x7bname\x7d\x7d` placeholders in an expected line
`pre ++ token ++ post` (plain literal context, not a whole-line `/…/` regex).
(a) If `name` is bound to `prev` in the capture table, the placeholder
compiles to a non-capturing literal fragment for `prev`: the line matches
exactly `pre ++ prev ++ post` and nothing else (literal text, not a regex),
and a successful match leaves the table unchanged.
(b) If `name` is unbound, the placeholder compiles to the capture fragment
`(?<name>.+)`: a match consumes one or more characters and the successful
line match records the consumed substring as the new binding; the
zero-character middle (`pre ++ post`) does not match.
(c) If a line match yields for the already-bound `name` (via `:*`) a value
different from the stored one, the whole match fails with the
capture-mismatch diagnostic and the stored binding is not overwritten. -/
theorem claim_C1_placeholder_semantics
    (o : Oracle) (caps : Caps) (name pre post : List Char)
    (hname : validName name) (hpre : cleanLit pre) (hpost : cleanLit post)
    (hnr1 : ¬((pre ++ phTok name ++ post).head? = some '/' ∧
      (pre ++ phTok name ++ post).getLast? = some '/'))
    (hnr2 : ¬((pre ++ phStarTok name ++ post).head? = some '/' ∧
      (pre ++ phStarTok name ++ post).getLast? = some '/'))
    (hnle : normLine (pre ++ phTok name ++ post) = pre ++ phTok name ++ post)
    (hnse : normLine (pre ++ phStarTok name ++ post) = pre ++ phStarTok name ++ post) :
    (∀ prev, capsGet caps name = some prev →
      compileExpectedLineToRegex (pre ++ phTok name ++ post) caps =
        (.frags (pre.map .lit ++ .boundLit prev :: post.map .lit), []) ∧
      (∀ a, fragsMatch o (pre.map .lit ++ .boundLit prev :: post.map .lit) a = some [] ↔
        a = pre ++ prev ++ post) ∧
      (normLine (pre ++ prev ++ post) = pre ++ prev ++ post →
        matchLines o [pre ++ phTok name ++ post] [pre ++ prev ++ post] caps = (.ok, caps))) ∧
    (capsGet caps name = none →
      compileExpectedLineToRegex (pre ++ phTok name ++ post) caps =
        (.frags (pre.map .lit ++ .capAny name :: post.map .lit), [name]) ∧
      (∀ mid, mid ≠ [] →
        (∀ m2, pre ++ m2 ++ post = pre ++ mid ++ post → m2 = mid) →
        normLine (pre ++ mid ++ post) = pre ++ mid ++ post →
        matchLines o [pre ++ phTok name ++ post] [pre ++ mid ++ post] caps =
          (.ok, capsSet caps name mid)) ∧
      fragsMatch o (pre.map .lit ++ .capAny name :: post.map .lit) (pre ++ post) = none) ∧
    (∀ prev mid, capsGet caps name = some prev → mid ≠ [] → prev ≠ mid →
      (∀ m2, pre ++ m2 ++ post = pre ++ mid ++ post → m2 = mid) →
      normLine (pre ++ mid ++ post) = pre ++ mid ++ post →
      matchLines o [pre ++ phStarTok name ++ post] [pre ++ mid ++ post] caps =
        (.fail (.captureMismatch name prev mid), caps)) := by
  obtain ⟨c0, ntail, rfl⟩ : ∃ c0 ntail, name = c0 :: ntail := by
    cases name with
    | nil => cases hname
    | cons c0 ntail => exact ⟨c0, ntail, rfl⟩
  obtain ⟨h0, ht⟩ := hname
  have hmTok := matchPhAt_phTok c0 ntail post h0 ht
  have hmStar := matchPhAt_phStarTok c0 ntail post h0 ht
  have hwild1 : isWildLine (pre ++ phTok (c0 :: ntail) ++ post) = false :=
    isWild_false_of_brace (by simp [phTok])
  have hwild2 : isWildLine (pre ++ phStarTok (c0 :: ntail) ++ post) = false :=
    isWild_false_of_brace (by simp [phStarTok])
  refine ⟨?_, ?_, ?_⟩
  · intro prev hb
    have hsplit := compileExpected_bound caps pre (c0 :: ntail) post prev hpre hpost hmTok hnr1 hb
    refine ⟨hsplit, fun a => boundLit_line_iff o pre prev post a, ?_⟩
    intro hna
    have happ : applyCompiled o
        (compileExpectedLineToRegex (pre ++ phTok (c0 :: ntail) ++ post) caps).1
        (pre ++ prev ++ post) = some [] := by
      rw [hsplit]
      show fragsMatch o _ _ = some []
      exact (boundLit_line_iff o pre prev post _).mpr rfl
    rw [matchLines_single o _ _ caps [] hnle hna hwild1 happ, hsplit]
    rfl
  · intro hb
    have hsplit := compileExpected_unbound caps pre (c0 :: ntail) post hpre hpost hmTok hnr1 hb
    refine ⟨hsplit, ?_, capAny_line_empty o (c0 :: ntail) pre post⟩
    intro mid hmid huniq hna
    have huniq2 : ∀ m2, m2 ++ post = mid ++ post → m2 = mid := fun m2 h2 =>
      huniq m2 (by rw [List.append_assoc, h2, ← List.append_assoc])
    have happ : applyCompiled o
        (compileExpectedLineToRegex (pre ++ phTok (c0 :: ntail) ++ post) caps).1
        (pre ++ mid ++ post) = some [(c0 :: ntail, mid)] := by
      rw [hsplit]
      show fragsMatch o _ _ = _
      exact capAny_line o (c0 :: ntail) pre mid post hmid huniq2
    rw [matchLines_single o _ _ caps _ hnle hna hwild1 happ, hsplit]
    dsimp only
    rw [applyKeys_single_new (c0 :: ntail) mid caps hb]
  · intro prev mid hb hmid hneq huniq hna
    have hsplit := compileExpected_star caps pre (c0 :: ntail) post hpre hpost hmStar hnr2
    have huniq2 : ∀ m2, m2 ++ post = mid ++ post → m2 = mid := fun m2 h2 =>
      huniq m2 (by rw [List.append_assoc, h2, ← List.append_assoc])
    have happ : applyCompiled o
        (compileExpectedLineToRegex (pre ++ phStarTok (c0 :: ntail) ++ post) caps).1
        (pre ++ mid ++ post) = some [(c0 :: ntail, mid)] := by
      rw [hsplit]
      show fragsMatch o _ _ = _
      exact capAny_line o (c0 :: ntail) pre mid post hmid huniq2
    rw [matchLines_single o _ _ caps _ hnse hna hwild2 happ, hsplit]
    dsimp only
    rw [applyKeys_single_ne (c0 :: ntail) mid prev caps hb hneq]

/-- C1 witness: `claim_C1_placeholder_semantics` at concrete inputs. -/
theorem claim_C1_witness :
    (matchLines noUserRegex [("v=").data ++ phTok (("id").data) ++ []]
      [("v=").data ++ ("A").data ++ []] [(("id").data, ("A").data)] =
        (.ok, [(("id").data, ("A").data)])) ∧
    (matchLines noUserRegex [("v=").data ++ phTok (("id").data) ++ []]
      [("v=").data ++ ("B").data ++ []] [] =
        (.ok, capsSet [] (("id").data) (("B").data))) ∧
    (matchLines noUserRegex [("v=").data ++ phStarTok (("id").data) ++ []]
      [("v=").data ++ ("B").data ++ []] [(("id").data, ("A").data)] =
        (.fail (.captureMismatch (("id").data) (("A").data) (("B").data)),
          [(("id").data, ("A").data)])) := by
  have h := claim_C1_placeholder_semantics noUserRegex [(("id").data, ("A").data)]
    (("id").data) (("v=").data) []
    ⟨by decide, by decide⟩ ⟨by decide, by decide, by decide⟩
    ⟨by decide, by decide, by decide⟩ (by decide) (by decide)
    (by decide) (by decide)
  have h2 := claim_C1_placeholder_semantics noUserRegex []
    (("id").data) (("v=").data) []
    ⟨by decide, by decide⟩ ⟨by decide, by decide, by decide⟩
    ⟨by decide, by decide, by decide⟩ (by decide) (by decide)
    (by decide) (by decide)
  refine ⟨(h.1 (("A").data) (by decide)).2.2 (by decide), ?_, ?_⟩
  · exact (h2.2.1 (by decide)).2.1 (("B").data) (by decide)
      (fun m2 hh => by simpa using hh) (by decide)
  · exact h.2.2 (("A").data) (("B").data) (by decide) (by decide) (by decide)
      (fun m2 hh => by simpa using hh) (by decide)


end Mdtest
